import Mathlib

/-!
Shallow embedding of the netdecker reconciliation/allocation core.

Python `dict[str, int]` values are modelled as insertion-ordered association
lists (`List (String × α)`); `d[k] = v` is `alInsert` (overwrite in place,
else append), matching CPython insertion-order semantics.  Python integers
are `Int`.  The SQLAlchemy session-per-call transactions are modelled as
pure state passing; raising inside a `Session.begin` block rolls the
transaction back, which is modelled by returning the *original* state next
to the error.
-/

namespace Netdecker

/-- Python dict lookup `d.get(k)`: first (unique) matching key. -/
def alGet {α : Type} (m : List (String × α)) (k : String) : Option α :=
  (m.find? (fun p => p.1 == k)).map (·.2)

/-- Python dict lookup with default, `d.get(k, dflt)`. -/
def alGetD {α : Type} (m : List (String × α)) (k : String) (dflt : α) : α :=
  (alGet m k).getD dflt

/-- Python dict assignment `d[k] = v`: overwrite in place, else append. -/
def alInsert {α : Type} : List (String × α) → String → α → List (String × α)
  | [], k, v => [(k, v)]
  | p :: rest, k, v => if p.1 == k then (k, v) :: rest else p :: alInsert rest k v

/-- The keys of an association list, in order. -/
def alKeys {α : Type} (m : List (String × α)) : List String := m.map (·.1)

/-- A card-name-to-quantity map (Python `dict[str, int]`). -/
abbrev CardMap := List (String × Int)

/-- `netdecker.models.card.Card`: ledger row (id/timestamps omitted). -/
structure Card where
  name : String
  quantity_owned : Int
  quantity_available : Int
deriving DecidableEq

/-- The `proxy_cards` table: rows in insertion order, `name` unique-indexed. -/
abbrev Ledger := List Card

/-- `session.scalars(select(Card).where(Card.name == n)).first()`. -/
def findCard (cards : Ledger) (n : String) : Option Card :=
  cards.find? (fun c => c.name == n)

/-- Mutate the (first, unique) row named `n` in place. -/
def updateCard : Ledger → String → (Card → Card) → Ledger
  | [], _, _ => []
  | c :: rest, n, f =>
      if c.name == n then f c :: rest else c :: updateCard rest n f

/-- `netdecker.errors.CardInsufficientQuantityError` payload. -/
structure CardInsufficientQuantityError where
  name : String
  requested : Int
  quantity : Int
deriving DecidableEq

/-- `netdecker.models.decklist.DeckEntry` (id omitted). -/
structure DeckEntry where
  decklist_id : Nat
  card_name : String
  quantity : Int
deriving DecidableEq

/-! ## `CardInventoryService` (src/netdecker/services/card_inventory.py) -/

/-- `CardInventoryService.add_cards`: upsert, adding the amount to both
`quantity_owned` and `quantity_available`; a fresh name is inserted with
`quantity_owned = quantity_available = qty`. -/
def add_cards : Ledger → CardMap → Ledger
  | cards, [] => cards
  | cards, (n, q) :: rest =>
      let cards' :=
        match findCard cards n with
        | some _ =>
            updateCard cards n (fun c =>
              { c with quantity_owned := c.quantity_owned + q,
                       quantity_available := c.quantity_available + q })
        | none => cards ++ [⟨n, q, q⟩]
      add_cards cards' rest

/-- Loop body of `CardInventoryService.remove_cards`, threading the
in-transaction ledger; returns the raised error, if any, next to the
state at the point of raising. -/
def remove_cards_loop : CardMap → Ledger → Ledger × Option CardInsufficientQuantityError
  | [], cards => (cards, none)
  | (n, q) :: rest, cards =>
      match findCard cards n with
      | none => remove_cards_loop rest cards
      | some card =>
          if card.quantity_owned < q then
            (cards, some ⟨card.name, q, card.quantity_owned⟩)
          else
            remove_cards_loop rest (updateCard cards n (fun c =>
              let owned := c.quantity_owned - q
              { c with quantity_owned := owned,
                       quantity_available :=
                         if owned < c.quantity_available then owned
                         else c.quantity_available }))

/-- `CardInventoryService.remove_cards`: `Session.begin` rolls the whole
transaction back when the loop raises, so on error the persisted ledger is
the input one. -/
def remove_cards (cards : Ledger) (req : CardMap) :
    Ledger × Option CardInsufficientQuantityError :=
  match remove_cards_loop req cards with
  | (cards', none) => (cards', none)
  | (_, some e) => (cards, some e)

/-! ## `CardAllocationService` (src/netdecker/services/allocation.py) -/

/-- Loop of `CardAllocationService.allocate_cards`, threading the shortage
dict and the ledger. -/
def allocate_loop : CardMap → CardMap → Ledger → CardMap × Ledger
  | [], insufficient, cards => (insufficient, cards)
  | (n, q) :: rest, insufficient, cards =>
      match findCard cards n with
      | none => allocate_loop rest (alInsert insufficient n q) cards
      | some card =>
          if card.quantity_available < q then
            allocate_loop rest
              (alInsert insufficient n (q - card.quantity_available))
              (updateCard cards n (fun c => { c with quantity_available := 0 }))
          else
            allocate_loop rest insufficient
              (updateCard cards n (fun c =>
                { c with quantity_available := c.quantity_available - q }))

/-- `CardAllocationService.allocate_cards`: returns the shortage map and the
updated ledger. -/
def allocate_cards (cards : Ledger) (req : CardMap) : CardMap × Ledger :=
  allocate_loop req [] cards

/-- Loop body of `CardAllocationService.release_cards`. -/
def release_cards_loop : CardMap → Ledger → Ledger × Option CardInsufficientQuantityError
  | [], cards => (cards, none)
  | (n, q) :: rest, cards =>
      match findCard cards n with
      | none => release_cards_loop rest cards
      | some card =>
          let new_available := card.quantity_available + q
          if card.quantity_owned < new_available then
            (cards, some ⟨card.name, q, card.quantity_owned⟩)
          else
            release_cards_loop rest (updateCard cards n (fun c =>
              { c with quantity_available := c.quantity_available + q }))

/-- `CardAllocationService.release_cards`: transactional, rolled back on
error. -/
def release_cards (cards : Ledger) (req : CardMap) :
    Ledger × Option CardInsufficientQuantityError :=
  match release_cards_loop req cards with
  | (cards', none) => (cards', none)
  | (_, some e) => (cards, some e)

/-- Loop of `calculate_needed_cards` over the required map, reading a fixed
ledger and accumulating `cards_needed`. -/
def calculate_needed_loop (cards : Ledger) : CardMap → CardMap → CardMap
  | [], cards_needed => cards_needed
  | (n, q) :: rest, cards_needed =>
      match findCard cards n with
      | none => calculate_needed_loop cards rest (alInsert cards_needed n q)
      | some card =>
          if card.quantity_available < q then
            calculate_needed_loop cards rest
              (alInsert cards_needed n (q - card.quantity_available))
          else
            calculate_needed_loop cards rest cards_needed

/-- `CardAllocationService.calculate_needed_cards`: read-only shortfall
computation. -/
def calculate_needed_cards (cards : Ledger) (required_cards : CardMap) : CardMap :=
  calculate_needed_loop cards required_cards []

/-- Loop of `check_allocation_feasibility` over the requested map, reading a
fixed ledger and accumulating `insufficient_cards`. -/
def check_feasibility_loop (cards : Ledger) : CardMap → CardMap → CardMap
  | [], insufficient => insufficient
  | (n, q) :: rest, insufficient =>
      match findCard cards n with
      | none => check_feasibility_loop cards rest (alInsert insufficient n q)
      | some card =>
          if card.quantity_available < q then
            check_feasibility_loop cards rest
              (alInsert insufficient n (q - card.quantity_available))
          else
            check_feasibility_loop cards rest insufficient

/-- `CardAllocationService.check_allocation_feasibility`: read-only dry run
of allocation. -/
def check_allocation_feasibility (cards : Ledger) (card_quantities : CardMap) :
    CardMap :=
  check_feasibility_loop cards card_quantities []

/-- Loop of `release_decklist_allocation` over the deck's entries: add each
entry's quantity back to availability (`if card:` skips unknown names). -/
def release_deck_loop : List DeckEntry → Ledger → Ledger
  | [], cards => cards
  | e :: rest, cards =>
      match findCard cards e.card_name with
      | some _ =>
          release_deck_loop rest (updateCard cards e.card_name (fun c =>
            { c with quantity_available := c.quantity_available + e.quantity }))
      | none => release_deck_loop rest cards

/-- `CardAllocationService.release_decklist_allocation`: add each of the
deck's entry quantities back to availability, with no upper-bound check. -/
def release_decklist_allocation (cards : Ledger) (entries : List DeckEntry)
    (decklist_id : Nat) : Ledger :=
  release_deck_loop (entries.filter (fun e => e.decklist_id == decklist_id)) cards

/-! ## Card-list parsing (src/netdecker/utils.py, `parse_cardlist`) -/

/-- `netdecker.errors.CardListInputError` payload: every offending line. -/
structure CardListInputError where
  line_errors : List String
deriving DecidableEq

/-- Python `line.startswith("#")`: the first character is a hash. -/
def starts_with_hash (line : String) : Bool :=
  match line.toList with
  | [] => false
  | c :: _ => c == '#'

/-- Python `line[0]`; the parser only consults it on nonempty lines. -/
def py_first (line : String) : Char := line.toList.headD ' '

/-- Python `s.strip()`: drop leading and trailing whitespace. -/
def py_strip (s : String) : String :=
  String.mk (((s.toList.dropWhile Char.isWhitespace).reverse.dropWhile
    Char.isWhitespace).reverse)

/-- Python `s.split(" ", 1)`: split at the first space only. -/
def split_maxsplit1 (s : String) : List String :=
  let cs := s.toList
  match cs.findIdx? (fun c => c == ' ') with
  | none => [s]
  | some i => [String.mk (cs.take i), String.mk (cs.drop (i + 1))]

/-- Python `str.isdigit` (ASCII digits): nonempty and all digits. -/
def str_isdigit (s : String) : Bool :=
  !s.toList.isEmpty && s.toList.all Char.isDigit

/-- Python `int(s)` for an all-digit string. -/
def str_toInt (s : String) : Int :=
  (s.toList.foldl (fun a c => a * 10 + (c.toNat - '0'.toNat)) 0 : Nat)

/-- `Counter` update `cards[card_name] += quantity`. -/
def counterAdd : CardMap → String → Int → CardMap
  | [], k, v => [(k, v)]
  | p :: rest, k, v =>
      if p.1 == k then (p.1, p.2 + v) :: rest else p :: counterAdd rest k v

/-- The skip test of `parse_cardlist`: comment, empty, or first character not
a digit ("skip non-cardlines"). -/
def skips_line (line : String) : Bool :=
  starts_with_hash line || line == "" || !(py_first line).isDigit

/-- The loop of `parse_cardlist`, threading `line_errors` and `cards`. -/
def parse_cardlist_loop : List String → List String → CardMap → List String × CardMap
  | [], line_errors, cards => (line_errors, cards)
  | line :: rest, line_errors, cards =>
      if skips_line line then
        parse_cardlist_loop rest line_errors cards
      else
        match split_maxsplit1 (py_strip line) with
        | [qs, card_name] =>
            if !str_isdigit qs then
              parse_cardlist_loop rest (line_errors ++ [line]) cards
            else
              parse_cardlist_loop rest line_errors
                (counterAdd cards card_name (str_toInt qs))
        | _ => parse_cardlist_loop rest (line_errors ++ [line]) cards

/-- `netdecker.utils.parse_cardlist`: raises `CardListInputError` with all
offending lines when any were collected, else returns the counter. -/
def parse_cardlist (card_list : List String) : Except CardListInputError CardMap :=
  let res := parse_cardlist_loop card_list [] []
  if res.1.isEmpty then .ok res.2 else .error ⟨res.1⟩

/-- A line that `parse_cardlist` treats as a card line (not skipped). -/
def is_cardline (line : String) : Bool := !skips_line line

/-- A card line the loop records as an error: wrong token count after
splitting at the first space, or a non-numeric quantity token. -/
def line_malformed (line : String) : Bool :=
  match split_maxsplit1 (py_strip line) with
  | [qs, _] => !str_isdigit qs
  | _ => true

instance : DecidableEq (Except CardListInputError CardMap) := fun a b =>
  match a, b with
  | .ok x, .ok y => if h : x = y then isTrue (by rw [h]) else isFalse (by
      intro hc; cases hc; exact h rfl)
  | .error x, .error y => if h : x = y then isTrue (by rw [h]) else isFalse (by
      intro hc; cases hc; exact h rfl)
  | .ok _, .error _ => isFalse (by intro hc; cases hc)
  | .error _, .ok _ => isFalse (by intro hc; cases hc)

/-! ## Decklist store (src/netdecker/services/decklist.py) and workflow state -/

/-- `netdecker.models.decklist.Decklist` (timestamps omitted). -/
structure Decklist where
  id : Nat
  name : String
  format : String
  url : String
deriving DecidableEq

/-- The persistent store the workflow operates on: card ledger, decklists,
deck entries, and the next decklist id the database would assign. -/
structure WorkflowState where
  cards : Ledger
  decklists : List Decklist
  entries : List DeckEntry
  next_id : Nat
deriving DecidableEq

/-- `DecklistService.get_decklist`: first match on (name, format). -/
def get_decklist (st : WorkflowState) (name format_name : String) : Option Decklist :=
  st.decklists.find? (fun d => d.name == name && d.format == format_name)

/-- `DecklistService.get_decklist_cards`: the deck's entries as a dict. -/
def get_decklist_cards (st : WorkflowState) (decklist_id : Nat) : CardMap :=
  (st.entries.filter (fun e => e.decklist_id == decklist_id)).foldl
    (fun m e => alInsert m e.card_name e.quantity) []

/-- `DecklistService.create_decklist`: returns the new id and state. -/
def create_decklist (st : WorkflowState) (name format_name url : String) :
    Nat × WorkflowState :=
  (st.next_id,
   { st with
       decklists := st.decklists ++ [⟨st.next_id, name, format_name, url⟩],
       next_id := st.next_id + 1 })

/-- `DecklistService.update_decklist_cards`: wholesale replacement of the
deck's entries. -/
def update_decklist_cards (st : WorkflowState) (decklist_id : Nat)
    (new_card_list : CardMap) : WorkflowState :=
  { st with
      entries :=
        st.entries.filter (fun e => !(e.decklist_id == decklist_id))
          ++ new_card_list.map (fun p => ⟨decklist_id, p.1, p.2⟩) }

/-- `DecklistService.update_decklist_url`. -/
def update_decklist_url (st : WorkflowState) (decklist_id : Nat)
    (new_url : String) : WorkflowState :=
  { st with
      decklists := st.decklists.map (fun d =>
        if d.id == decklist_id then { d with url := new_url } else d) }

/-- `CardInventoryService.get_available_quantity`: 0 for an unknown card. -/
def get_available_quantity (cards : Ledger) (n : String) : Int :=
  match findCard cards n with
  | some c => c.quantity_available
  | none => 0

/-! ## Deck management workflow (src/netdecker/workflows/deck_management.py) -/

/-- Python `s.lower()` (ASCII): lowercase every character. -/
def py_lower (s : String) : String := String.mk (s.toList.map Char.toLower)

/-- `DeckSwaps` dataclass. -/
structure DeckSwaps where
  cards_to_add : CardMap
  cards_to_remove : CardMap
deriving DecidableEq

/-- `DeckUpdatePreview` dataclass. -/
structure DeckUpdatePreview where
  deck_name : String
  deck_format : String
  swaps : DeckSwaps
  cards_to_order : CardMap
  errors : List String
  info_messages : List String
deriving DecidableEq

/-- `DeckManagementWorkflow._calculate_swaps`: case-insensitive diff of two
card maps, keyed by the original casing; normalization is a dict keyed by
the lowercased name, so a later case-variant overwrites an earlier one. -/
def _calculate_swaps (current_cards new_cards : CardMap) : DeckSwaps :=
  let current_normalized : List (String × (String × Int)) :=
    current_cards.foldl (fun m p => alInsert m (py_lower p.1) (p.1, p.2)) []
  let new_normalized : List (String × (String × Int)) :=
    new_cards.foldl (fun m p => alInsert m (py_lower p.1) (p.1, p.2)) []
  let cards_to_add :=
    new_normalized.foldl (fun acc q =>
      match alGet current_normalized q.1 with
      | some cp => if cp.2 < q.2.2 then alInsert acc q.2.1 (q.2.2 - cp.2) else acc
      | none => alInsert acc q.2.1 q.2.2) []
  let cards_to_remove :=
    current_normalized.foldl (fun acc q =>
      match alGet new_normalized q.1 with
      | some np => if np.2 < q.2.2 then alInsert acc q.2.1 (q.2.2 - np.2) else acc
      | none => alInsert acc q.2.1 q.2.2) []
  ⟨cards_to_add, cards_to_remove⟩

/-- `DeckManagementWorkflow._simulate_release`: forecast availability after
releasing the removed cards (not persisted). -/
def _simulate_release (cards : Ledger) (cards_to_remove : CardMap) : CardMap :=
  cards_to_remove.foldl (fun simulated p =>
    alInsert simulated p.1 (get_available_quantity cards p.1 + p.2)) []

/-- `DeckManagementWorkflow._calculate_order_needs`: order needs for the
additions against simulated availability, falling back to actual
availability when the simulated value is absent or zero (`if not available`). -/
def _calculate_order_needs (cards : Ledger) (cards_to_add simulated_available : CardMap) :
    CardMap :=
  cards_to_add.foldl (fun needs p =>
    let available := alGetD simulated_available p.1 0
    let available := if available == 0 then get_available_quantity cards p.1 else available
    if available < p.2 then alInsert needs p.1 (p.2 - available) else needs) []

/-- `DeckManagementWorkflow.preview_deck_update`.  The external fetch of the
deck's url is modelled by the `fetched` argument; a fetch failure is the
exception caught by the method's `except` clause, which records an error
entry and leaves swaps and order empty. -/
def preview_deck_update (st : WorkflowState) (fetched : Except String CardMap)
    (format_name name : String) : DeckUpdatePreview :=
  match fetched with
  | .error e =>
      { deck_name := name, deck_format := format_name, swaps := ⟨[], []⟩,
        cards_to_order := [], errors := ["Error processing deck: " ++ e],
        info_messages := [] }
  | .ok new_cards =>
      match get_decklist st name format_name with
      | some existing_deck =>
          let current_cards := get_decklist_cards st existing_deck.id
          let swaps := _calculate_swaps current_cards new_cards
          let simulated_available := _simulate_release st.cards swaps.cards_to_remove
          let cards_to_order :=
            _calculate_order_needs st.cards swaps.cards_to_add simulated_available
          { deck_name := name, deck_format := format_name, swaps := swaps,
            cards_to_order := cards_to_order, errors := [], info_messages := [] }
      | none =>
          { deck_name := name, deck_format := format_name,
            swaps := ⟨new_cards, []⟩,
            cards_to_order := calculate_needed_cards st.cards new_cards,
            errors := [], info_messages := [] }

/-- `sum(d.values())`. -/
def sum_values (m : CardMap) : Int := m.foldl (fun a p => a + p.2) 0

/-- The allocation/auto-provisioning block of `apply_deck_update`, repeated
verbatim in the source for both the existing-deck and the new-deck branch:
allocate, and on shortage add exactly the shortage to the inventory, retry
allocation of exactly the shortage, and record an info or warning entry. -/
def allocate_with_provision (cards : Ledger) (new_cards : CardMap)
    (preview : DeckUpdatePreview) : Ledger × DeckUpdatePreview :=
  let res := allocate_cards cards new_cards
  let insufficient := res.1
  if insufficient.isEmpty then (res.2, preview)
  else
    let cards1 := add_cards res.2 insufficient
    let res2 := allocate_cards cards1 insufficient
    if res2.1.isEmpty then
      (res2.2,
       { preview with
           info_messages := preview.info_messages ++
             ["Info: Created " ++ toString (sum_values insufficient) ++
              " proxy cards for allocation"] })
    else
      (res2.2,
       { preview with
           errors := preview.errors ++
             ["Warning: Could not fully allocate " ++ toString (sum_values res2.1) ++
              " cards"] })

/-- `DeckManagementWorkflow.apply_deck_update`: preview first and return it
unchanged if it recorded errors; otherwise re-fetch, release/create and
persist the deck, then allocate with auto-provisioning. -/
def apply_deck_update (st : WorkflowState) (fetched : Except String CardMap)
    (url format_name name : String) : DeckUpdatePreview × WorkflowState :=
  let preview := preview_deck_update st fetched format_name name
  if !preview.errors.isEmpty then (preview, st)
  else
    match fetched with
    | .error e =>
        ({ preview with errors := preview.errors ++ ["Error applying update: " ++ e] },
         st)
    | .ok new_cards =>
        match get_decklist st name format_name with
        | some existing_deck =>
            let st1 :=
              { st with
                  cards := release_decklist_allocation st.cards st.entries
                    existing_deck.id }
            let st2 := update_decklist_cards st1 existing_deck.id new_cards
            let st3 := update_decklist_url st2 existing_deck.id url
            let res := allocate_with_provision st3.cards new_cards preview
            (res.2, { st3 with cards := res.1 })
        | none =>
            let created := create_decklist st name format_name url
            let st2 := update_decklist_cards created.2 created.1 new_cards
            let res := allocate_with_provision st2.cards new_cards preview
            (res.2, { st2 with cards := res.1 })

/-! ## The ledger-mutating operations quantified over in the invariant claim -/

/-- One call into the inventory/allocation services that mutates the ledger. -/
inductive LedgerOp where
  | add (req : CardMap)
  | remove (req : CardMap)
  | allocate (req : CardMap)
  | release (req : CardMap)
  | releaseDeck (decklist_id : Nat)
deriving DecidableEq

/-- The ledger after one service call (`entries` is the deck-entry table,
which none of these five calls modifies). -/
def applyOp (entries : List DeckEntry) (cards : Ledger) : LedgerOp → Ledger
  | .add req => add_cards cards req
  | .remove req => (remove_cards cards req).1
  | .allocate req => (allocate_cards cards req).2
  | .release req => (release_cards cards req).1
  | .releaseDeck decklist_id => release_decklist_allocation cards entries decklist_id

/-- The ledger after a sequence of service calls. -/
def applyOps (entries : List DeckEntry) (cards : Ledger) : List LedgerOp → Ledger
  | [] => cards
  | op :: ops => applyOps entries (applyOp entries cards op) ops

/-- The per-card ledger invariant `0 ≤ quantity_available ≤ quantity_owned`. -/
def cardInv (c : Card) : Prop :=
  0 ≤ c.quantity_available ∧ c.quantity_available ≤ c.quantity_owned

instance : DecidablePred cardInv := fun c => by unfold cardInv; infer_instance

/-- The ledger invariant, per card. -/
def ledgerInv (cards : Ledger) : Prop := ∀ c ∈ cards, cardInv c

/-- All quantities of a card map are nonnegative (the spec assumes the
amounts handed to the services are nonnegative card counts). -/
def valsNonneg (m : CardMap) : Prop := ∀ p ∈ m, 0 ≤ p.2

/-- The payload of an operation has nonnegative quantities. -/
def opNonneg : LedgerOp → Prop
  | .add req => valsNonneg req
  | .remove req => valsNonneg req
  | .allocate req => valsNonneg req
  | .release req => valsNonneg req
  | .releaseDeck _ => True

/-- Whether the operation is a `release_decklist_allocation` call. -/
def isReleaseDeck : LedgerOp → Prop
  | .releaseDeck _ => True
  | _ => False

/-- The lower half of the invariant alone: `0 ≤ quantity_available`. -/
def availNonneg (cards : Ledger) : Prop := ∀ c ∈ cards, 0 ≤ c.quantity_available

/-- All deck entries carry nonnegative quantities. -/
def entriesNonneg (entries : List DeckEntry) : Prop := ∀ e ∈ entries, 0 ≤ e.quantity

instance : DecidablePred ledgerInv := fun cs => by unfold ledgerInv; infer_instance

instance : DecidablePred availNonneg := fun cs => by unfold availNonneg; infer_instance

instance : DecidablePred entriesNonneg := fun l => by unfold entriesNonneg; infer_instance

instance : DecidablePred valsNonneg := fun m => by unfold valsNonneg; infer_instance

instance : DecidablePred opNonneg := fun op => by
  cases op <;> unfold opNonneg <;> infer_instance

instance : DecidablePred isReleaseDeck := fun op => by
  cases op <;> unfold isReleaseDeck <;> infer_instance

/-! ## Spec-side descriptions the claims compare the code against -/

/-- The shortage `allocate`, `checkFeasibility` and `calculateNeeded` report
for one requested entry, read off a fixed ledger: the full requested
quantity for an unknown card, the shortfall `requested - available` when
availability falls short, nothing otherwise. -/
def shortfall (cards : Ledger) (p : String × Int) : Option (String × Int) :=
  match findCard cards p.1 with
  | none => some p
  | some c =>
      if c.quantity_available < p.2 then some (p.1, p.2 - c.quantity_available)
      else none

/-- Case-insensitive lookup of a card entry in a map. -/
def ciGet (m : CardMap) (k : String) : Option (String × Int) :=
  m.find? (fun p => py_lower p.1 == py_lower k)

/-- What the swap calculator's claim says one side contributes: for an entry
of one map, the positive difference over the case-insensitive match in the
other map, keyed by the entry's own original casing. -/
def swap_spec (other : CardMap) (p : String × Int) : Option (String × Int) :=
  match ciGet other p.1 with
  | none => some p
  | some op => if op.2 < p.2 then some (p.1, p.2 - op.2) else none

/-- No two keys of the map coincide after lowercasing. -/
def lowerKeysNodup (m : CardMap) : Prop :=
  (m.map (fun p => py_lower p.1)).Nodup

instance : DecidablePred lowerKeysNodup := fun m => by
  unfold lowerKeysNodup; infer_instance

/-- The card entry a single well-formed card line contributes in
`parse_cardlist` (`none` for skipped or malformed lines). -/
def parsed_entry (line : String) : Option (String × Int) :=
  if skips_line line then none
  else
    match split_maxsplit1 (py_strip line) with
    | [qs, card_name] =>
        if str_isdigit qs then some (card_name, str_toInt qs) else none
    | _ => none

/-- The sum of the quantities that well-formed card lines named `name`
contribute. -/
def lines_total (lines : List String) (name : String) : Int :=
  (((lines.filterMap parsed_entry).filter (fun p => p.1 == name)).map (·.2)).sum

/-! ## Basic lemmas about the dict and ledger primitives -/

theorem alGet_cons {α : Type} (p : String × α) (m : List (String × α)) (k : String) :
    alGet (p :: m) k = if p.1 = k then some p.2 else alGet m k := by
  by_cases h : p.1 = k <;> simp [alGet, List.find?_cons, h]

theorem alInsert_cons {α : Type} (p : String × α) (m : List (String × α)) (k : String) (v : α) :
    alInsert (p :: m) k v = if p.1 = k then (k, v) :: m else p :: alInsert m k v := by
  by_cases h : p.1 = k <;> simp [alInsert, h]

theorem mem_alInsert {α : Type} (m : List (String × α)) (k : String) (v : α) :
    ∀ x ∈ alInsert m k v, x ∈ m ∨ x = (k, v) := by
  induction m with
  | nil =>
      intro x hx
      simp only [alInsert, List.mem_singleton] at hx
      right; exact hx
  | cons p rest ih =>
      intro x hx
      rw [alInsert_cons] at hx
      by_cases h : p.1 = k
      · rw [if_pos h] at hx
        rcases List.mem_cons.mp hx with h1 | h1
        · right; exact h1
        · left; exact List.mem_cons_of_mem _ h1
      · rw [if_neg h] at hx
        rcases List.mem_cons.mp hx with h1 | h1
        · left; exact h1 ▸ List.mem_cons_self _ _
        · rcases ih x h1 with h2 | h2
          · left; exact List.mem_cons_of_mem _ h2
          · right; exact h2

theorem alInsert_of_not_mem {α : Type} {m : List (String × α)} {k : String} (v : α)
    (h : k ∉ alKeys m) : alInsert m k v = m ++ [(k, v)] := by
  induction m with
  | nil => rfl
  | cons p rest ih =>
      simp only [alKeys, List.map_cons, List.mem_cons, not_or] at h
      rw [alInsert_cons, if_neg (fun hc => h.1 hc.symm),
        ih (by simpa [alKeys] using h.2)]
      simp

theorem mem_alKeys_alInsert {α : Type} {m : List (String × α)} {k a : String} {v : α}
    (ha : a ∈ alKeys (alInsert m k v)) : a ∈ alKeys m ∨ a = k := by
  simp only [alKeys, List.mem_map] at ha ⊢
  obtain ⟨x, hx, hxa⟩ := ha
  rcases mem_alInsert m k v x hx with h | h
  · left; exact ⟨x, h, hxa⟩
  · right; rw [← hxa, h]

theorem alKeys_nodup_alInsert {α : Type} {m : List (String × α)} (k : String) (v : α)
    (h : (alKeys m).Nodup) : (alKeys (alInsert m k v)).Nodup := by
  induction m with
  | nil => simp [alInsert, alKeys]
  | cons p rest ih =>
      rw [alInsert_cons]
      by_cases hp : p.1 = k
      · rw [if_pos hp]
        simpa [alKeys, ← hp] using h
      · rw [if_neg hp]
        simp only [alKeys, List.map_cons, List.nodup_cons] at h ⊢
        refine ⟨fun hc => ?_, ih h.2⟩
        rcases mem_alKeys_alInsert (by simpa [alKeys] using hc) with h1 | h1
        · exact h.1 (by simpa [alKeys] using h1)
        · exact hp h1

theorem alGet_of_mem_nodup {α : Type} {m : List (String × α)} {k : String} {v : α}
    (hnd : (alKeys m).Nodup) (hm : (k, v) ∈ m) : alGet m k = some v := by
  induction m with
  | nil => cases hm
  | cons p rest ih =>
      rw [alGet_cons]
      rcases List.mem_cons.mp hm with h | h
      · rw [if_pos (by rw [← h])]
        rw [← h]
      · have hk : p.1 ≠ k := by
          intro hc
          simp only [alKeys, List.map_cons, List.nodup_cons] at hnd
          exact hnd.1 (hc ▸ (List.mem_map.mpr ⟨(k, v), h, rfl⟩))
        rw [if_neg hk]
        exact ih (by simpa [alKeys] using (List.nodup_cons.mp (by simpa [alKeys] using hnd)).2) h

theorem alGet_mem {α : Type} {m : List (String × α)} {k : String} {v : α}
    (h : alGet m k = some v) : (k, v) ∈ m := by
  induction m with
  | nil => simp [alGet] at h
  | cons p rest ih =>
      rw [alGet_cons] at h
      by_cases hk : p.1 = k
      · rw [if_pos hk] at h
        obtain ⟨a, b⟩ := p
        simp only at hk
        simp only [Option.some.injEq] at h
        have : (k, v) = (a, b) := by rw [hk, h]
        exact this ▸ List.mem_cons_self _ _
      · rw [if_neg hk] at h
        exact List.mem_cons_of_mem _ (ih h)

theorem findCard_cons (c : Card) (cards : Ledger) (n : String) :
    findCard (c :: cards) n = if c.name = n then some c else findCard cards n := by
  by_cases h : c.name = n <;> simp [findCard, List.find?_cons, h]

theorem updateCard_cons (c : Card) (cards : Ledger) (n : String) (f : Card → Card) :
    updateCard (c :: cards) n f =
      if c.name = n then f c :: cards else c :: updateCard cards n f := by
  by_cases h : c.name = n <;> simp [updateCard, h]

/-- `findCard` after an in-place row update that does not rename the row. -/
theorem findCard_updateCard (cards : Ledger) (n m : String) (f : Card → Card)
    (hf : ∀ c, (f c).name = c.name) :
    findCard (updateCard cards n f) m =
      if m = n then (findCard cards n).map f else findCard cards m := by
  induction cards with
  | nil => simp [updateCard, findCard]
  | cons c rest ih =>
      rw [updateCard_cons]
      by_cases h : c.name = n
      · rw [if_pos h]
        by_cases hm : m = n
        · rw [findCard_cons, if_pos (by rw [hf c, h, hm]), hm, findCard_cons, if_pos h]
          simp
        · rw [findCard_cons, if_neg (by rw [hf c, h]; exact fun hc => hm hc.symm),
            if_neg hm, findCard_cons, if_neg (by rw [h]; exact fun hc => hm hc.symm)]
      · rw [if_neg h, findCard_cons]
        by_cases hcm : c.name = m
        · have hm : m ≠ n := fun hc => h (hcm.trans hc)
          rw [if_pos hcm, if_neg hm, findCard_cons, if_pos hcm]
        · rw [if_neg hcm, ih]
          by_cases hm : m = n
          · rw [if_pos hm, if_pos hm, findCard_cons, if_neg (by rw [hm] at hcm; exact hcm)]
          · rw [if_neg hm, if_neg hm, findCard_cons, if_neg hcm]

/-- Rows after an update are old rows or the image of the found row. -/
theorem mem_updateCard (cards : Ledger) (n : String) (f : Card → Card) :
    ∀ x ∈ updateCard cards n f,
      x ∈ cards ∨ ∃ c, findCard cards n = some c ∧ x = f c := by
  induction cards with
  | nil => intro x hx; simp [updateCard] at hx
  | cons c rest ih =>
      intro x hx
      rw [updateCard_cons] at hx
      by_cases h : c.name = n
      · rw [if_pos h] at hx
        rcases List.mem_cons.mp hx with h1 | h1
        · right; exact ⟨c, by rw [findCard_cons, if_pos h], h1⟩
        · left; exact List.mem_cons_of_mem _ h1
      · rw [if_neg h] at hx
        rcases List.mem_cons.mp hx with h1 | h1
        · left; exact h1 ▸ List.mem_cons_self _ _
        · rcases ih x h1 with h2 | h2
          · left; exact List.mem_cons_of_mem _ h2
          · right
            obtain ⟨d, hd, hxd⟩ := h2
            exact ⟨d, by rw [findCard_cons, if_neg h]; exact hd, hxd⟩

/-- The found row is a member of the ledger. -/
theorem mem_of_findCard {cards : Ledger} {n : String} {c : Card}
    (h : findCard cards n = some c) : c ∈ cards :=
  List.mem_of_find?_eq_some h

/-- The found row carries the looked-up name. -/
theorem name_of_findCard {cards : Ledger} {n : String} {c : Card}
    (h : findCard cards n = some c) : c.name = n := by
  have := List.find?_some h
  simpa using this

/-! ## Preservation of the ledger invariant by each service call (claim C1) -/

theorem updateCard_preserves {P : Card → Prop} {cards : Ledger} {n : String}
    {f : Card → Card} (h : ∀ c ∈ cards, P c)
    (hc : ∀ c, findCard cards n = some c → P (f c)) :
    ∀ x ∈ updateCard cards n f, P x := by
  intro x hx
  rcases mem_updateCard cards n f x hx with h1 | ⟨c, hfind, hxc⟩
  · exact h x h1
  · exact hxc ▸ hc c hfind

theorem ledgerInv_add_cards :
    ∀ (req : CardMap) (cards : Ledger), ledgerInv cards → valsNonneg req →
      ledgerInv (add_cards cards req) := by
  intro req
  induction req with
  | nil => intro cards h _; exact h
  | cons p rest ih =>
      intro cards hinv hnn
      obtain ⟨n, q⟩ := p
      have hq : (0 : Int) ≤ q := hnn _ (List.mem_cons_self _ _)
      have hrest : valsNonneg rest := fun x hx => hnn x (List.mem_cons_of_mem _ hx)
      rcases hfind : findCard cards n with _ | card
      · simp only [add_cards, hfind]
        refine ih _ (fun c hc => ?_) hrest
        rcases List.mem_append.mp hc with h1 | h1
        · exact hinv c h1
        · rcases List.mem_singleton.mp h1 with rfl
          exact ⟨hq, le_refl _⟩
      · simp only [add_cards, hfind]
        refine ih _ (updateCard_preserves hinv fun c hc => ?_) hrest
        obtain ⟨h1, h2⟩ := hinv c (mem_of_findCard hc)
        exact ⟨show (0 : Int) ≤ c.quantity_available + q by linarith,
               show c.quantity_available + q ≤ c.quantity_owned + q by linarith⟩

theorem ledgerInv_remove_loop :
    ∀ (req : CardMap) (cards : Ledger), ledgerInv cards →
      ledgerInv (remove_cards_loop req cards).1 := by
  intro req
  induction req with
  | nil => intro cards h; exact h
  | cons p rest ih =>
      intro cards hinv
      obtain ⟨n, q⟩ := p
      rcases hfind : findCard cards n with _ | card
      · simpa only [remove_cards_loop, hfind] using ih cards hinv
      · by_cases hguard : card.quantity_owned < q
        · simpa only [remove_cards_loop, hfind, if_pos hguard] using hinv
        · simp only [remove_cards_loop, hfind, if_neg hguard]
          refine ih _ (updateCard_preserves hinv fun c hc => ?_)
          have hcc : c = card := by rw [hfind] at hc; exact (Option.some.inj hc).symm
          subst hcc
          obtain ⟨h1, h2⟩ := hinv c (mem_of_findCard hfind)
          refine ⟨?_, ?_⟩
          · show (0 : Int) ≤ if c.quantity_owned - q < c.quantity_available
              then c.quantity_owned - q else c.quantity_available
            split <;> omega
          · show (if c.quantity_owned - q < c.quantity_available
              then c.quantity_owned - q else c.quantity_available) ≤
                c.quantity_owned - q
            split <;> omega

theorem ledgerInv_remove_cards (req : CardMap) (cards : Ledger)
    (hinv : ledgerInv cards) : ledgerInv (remove_cards cards req).1 := by
  unfold remove_cards
  rcases hres : remove_cards_loop req cards with ⟨cards', e⟩
  cases e
  · simpa using (hres ▸ ledgerInv_remove_loop req cards hinv :
      ledgerInv (cards', (none : Option CardInsufficientQuantityError)).1)
  · simpa using hinv

theorem ledgerInv_allocate_loop :
    ∀ (req ins : CardMap) (cards : Ledger), ledgerInv cards → valsNonneg req →
      ledgerInv (allocate_loop req ins cards).2 := by
  intro req
  induction req with
  | nil => intro ins cards h _; exact h
  | cons p rest ih =>
      intro ins cards hinv hnn
      obtain ⟨n, q⟩ := p
      have hq : (0 : Int) ≤ q := hnn _ (List.mem_cons_self _ _)
      have hrest : valsNonneg rest := fun x hx => hnn x (List.mem_cons_of_mem _ hx)
      rcases hfind : findCard cards n with _ | card
      · simpa only [allocate_loop, hfind] using ih _ _ hinv hrest
      · by_cases hguard : card.quantity_available < q
        · simp only [allocate_loop, hfind, if_pos hguard]
          refine ih _ _ (updateCard_preserves hinv fun c hc => ?_) hrest
          obtain ⟨h1, h2⟩ := hinv c (mem_of_findCard hc)
          exact ⟨le_refl _, show (0 : Int) ≤ c.quantity_owned by linarith⟩
        · simp only [allocate_loop, hfind, if_neg hguard]
          refine ih _ _ (updateCard_preserves hinv fun c hc => ?_) hrest
          have hcc : c = card := by rw [hfind] at hc; exact (Option.some.inj hc).symm
          subst hcc
          obtain ⟨h1, h2⟩ := hinv c (mem_of_findCard hfind)
          exact ⟨show (0 : Int) ≤ c.quantity_available - q by omega,
                 show c.quantity_available - q ≤ c.quantity_owned by omega⟩

theorem ledgerInv_release_loop :
    ∀ (req : CardMap) (cards : Ledger), ledgerInv cards → valsNonneg req →
      ledgerInv (release_cards_loop req cards).1 := by
  intro req
  induction req with
  | nil => intro cards h _; exact h
  | cons p rest ih =>
      intro cards hinv hnn
      obtain ⟨n, q⟩ := p
      have hq : (0 : Int) ≤ q := hnn _ (List.mem_cons_self _ _)
      have hrest : valsNonneg rest := fun x hx => hnn x (List.mem_cons_of_mem _ hx)
      rcases hfind : findCard cards n with _ | card
      · simpa only [release_cards_loop, hfind] using ih cards hinv hrest
      · by_cases hguard : card.quantity_owned < card.quantity_available + q
        · simpa only [release_cards_loop, hfind, if_pos hguard] using hinv
        · simp only [release_cards_loop, hfind, if_neg hguard]
          refine ih _ (updateCard_preserves hinv fun c hc => ?_) hrest
          have hcc : c = card := by rw [hfind] at hc; exact (Option.some.inj hc).symm
          subst hcc
          obtain ⟨h1, h2⟩ := hinv c (mem_of_findCard hfind)
          exact ⟨show (0 : Int) ≤ c.quantity_available + q by omega,
                 show c.quantity_available + q ≤ c.quantity_owned by omega⟩

theorem ledgerInv_release_cards (req : CardMap) (cards : Ledger)
    (hinv : ledgerInv cards) (hnn : valsNonneg req) :
    ledgerInv (release_cards cards req).1 := by
  unfold release_cards
  rcases hres : release_cards_loop req cards with ⟨cards', e⟩
  cases e
  · simpa using (hres ▸ ledgerInv_release_loop req cards hinv hnn :
      ledgerInv (cards', (none : Option CardInsufficientQuantityError)).1)
  · simpa using hinv

/-- The four map-based ledger operations preserve the full invariant. -/
theorem ledgerInv_applyOp {entries : List DeckEntry} {op : LedgerOp} {cards : Ledger}
    (hinv : ledgerInv cards) (hnn : opNonneg op) (hnr : ¬ isReleaseDeck op) :
    ledgerInv (applyOp entries cards op) := by
  cases op with
  | add req => exact ledgerInv_add_cards req cards hinv hnn
  | remove req => exact ledgerInv_remove_cards req cards hinv
  | allocate req => exact ledgerInv_allocate_loop req [] cards hinv hnn
  | release req => exact ledgerInv_release_cards req cards hinv hnn
  | releaseDeck i => exact absurd trivial hnr

theorem availNonneg_add_cards :
    ∀ (req : CardMap) (cards : Ledger), availNonneg cards → valsNonneg req →
      availNonneg (add_cards cards req) := by
  intro req
  induction req with
  | nil => intro cards h _; exact h
  | cons p rest ih =>
      intro cards hav hnn
      obtain ⟨n, q⟩ := p
      have hq : (0 : Int) ≤ q := hnn _ (List.mem_cons_self _ _)
      have hrest : valsNonneg rest := fun x hx => hnn x (List.mem_cons_of_mem _ hx)
      rcases hfind : findCard cards n with _ | card
      · simp only [add_cards, hfind]
        refine ih _ (fun c hc => ?_) hrest
        rcases List.mem_append.mp hc with h1 | h1
        · exact hav c h1
        · rcases List.mem_singleton.mp h1 with rfl
          exact hq
      · simp only [add_cards, hfind]
        refine ih _ (updateCard_preserves hav fun c hc => ?_) hrest
        have h1 := hav c (mem_of_findCard hc)
        exact show (0 : Int) ≤ c.quantity_available + q by omega

theorem availNonneg_remove_loop :
    ∀ (req : CardMap) (cards : Ledger), availNonneg cards →
      availNonneg (remove_cards_loop req cards).1 := by
  intro req
  induction req with
  | nil => intro cards h; exact h
  | cons p rest ih =>
      intro cards hav
      obtain ⟨n, q⟩ := p
      rcases hfind : findCard cards n with _ | card
      · simpa only [remove_cards_loop, hfind] using ih cards hav
      · by_cases hguard : card.quantity_owned < q
        · simpa only [remove_cards_loop, hfind, if_pos hguard] using hav
        · simp only [remove_cards_loop, hfind, if_neg hguard]
          refine ih _ (updateCard_preserves hav fun c hc => ?_)
          have hcc : c = card := by rw [hfind] at hc; exact (Option.some.inj hc).symm
          subst hcc
          have h1 := hav c (mem_of_findCard hfind)
          show (0 : Int) ≤ if c.quantity_owned - q < c.quantity_available
            then c.quantity_owned - q else c.quantity_available
          split <;> omega

theorem availNonneg_remove_cards (req : CardMap) (cards : Ledger)
    (hav : availNonneg cards) : availNonneg (remove_cards cards req).1 := by
  unfold remove_cards
  rcases hres : remove_cards_loop req cards with ⟨cards', e⟩
  cases e
  · simpa using (hres ▸ availNonneg_remove_loop req cards hav :
      availNonneg (cards', (none : Option CardInsufficientQuantityError)).1)
  · simpa using hav

theorem availNonneg_allocate_loop :
    ∀ (req ins : CardMap) (cards : Ledger), availNonneg cards →
      availNonneg (allocate_loop req ins cards).2 := by
  intro req
  induction req with
  | nil => intro ins cards h; exact h
  | cons p rest ih =>
      intro ins cards hav
      obtain ⟨n, q⟩ := p
      rcases hfind : findCard cards n with _ | card
      · simpa only [allocate_loop, hfind] using ih _ _ hav
      · by_cases hguard : card.quantity_available < q
        · simp only [allocate_loop, hfind, if_pos hguard]
          exact ih _ _ (updateCard_preserves hav fun c _ => le_refl 0)
        · simp only [allocate_loop, hfind, if_neg hguard]
          refine ih _ _ (updateCard_preserves hav fun c hc => ?_)
          have hcc : c = card := by rw [hfind] at hc; exact (Option.some.inj hc).symm
          subst hcc
          exact show (0 : Int) ≤ c.quantity_available - q by omega

theorem availNonneg_release_loop :
    ∀ (req : CardMap) (cards : Ledger), availNonneg cards → valsNonneg req →
      availNonneg (release_cards_loop req cards).1 := by
  intro req
  induction req with
  | nil => intro cards h _; exact h
  | cons p rest ih =>
      intro cards hav hnn
      obtain ⟨n, q⟩ := p
      have hq : (0 : Int) ≤ q := hnn _ (List.mem_cons_self _ _)
      have hrest : valsNonneg rest := fun x hx => hnn x (List.mem_cons_of_mem _ hx)
      rcases hfind : findCard cards n with _ | card
      · simpa only [release_cards_loop, hfind] using ih cards hav hrest
      · by_cases hguard : card.quantity_owned < card.quantity_available + q
        · simpa only [release_cards_loop, hfind, if_pos hguard] using hav
        · simp only [release_cards_loop, hfind, if_neg hguard]
          refine ih _ (updateCard_preserves hav fun c hc => ?_) hrest
          have h1 := hav c (mem_of_findCard hc)
          exact show (0 : Int) ≤ c.quantity_available + q by omega

theorem availNonneg_release_cards (req : CardMap) (cards : Ledger)
    (hav : availNonneg cards) (hnn : valsNonneg req) :
    availNonneg (release_cards cards req).1 := by
  unfold release_cards
  rcases hres : release_cards_loop req cards with ⟨cards', e⟩
  cases e
  · simpa using (hres ▸ availNonneg_release_loop req cards hav hnn :
      availNonneg (cards', (none : Option CardInsufficientQuantityError)).1)
  · simpa using hav

theorem availNonneg_release_deck_loop :
    ∀ (l : List DeckEntry) (cards : Ledger), (∀ e ∈ l, 0 ≤ e.quantity) →
      availNonneg cards → availNonneg (release_deck_loop l cards) := by
  intro l
  induction l with
  | nil => intro cards _ h; exact h
  | cons e rest ih =>
      intro cards hnn hav
      have he : (0 : Int) ≤ e.quantity := hnn _ (List.mem_cons_self _ _)
      have hrest : ∀ x ∈ rest, (0 : Int) ≤ x.quantity :=
        fun x hx => hnn x (List.mem_cons_of_mem _ hx)
      rcases hfind : findCard cards e.card_name with _ | card
      · simpa only [release_deck_loop, hfind] using ih cards hrest hav
      · simp only [release_deck_loop, hfind]
        refine ih _ hrest (updateCard_preserves hav fun c hc => ?_)
        have h1 := hav c (mem_of_findCard hc)
        exact show (0 : Int) ≤ c.quantity_available + e.quantity by omega

theorem availNonneg_release_decklist (cards : Ledger) (entries : List DeckEntry)
    (decklist_id : Nat) (he : entriesNonneg entries) (hav : availNonneg cards) :
    availNonneg (release_decklist_allocation cards entries decklist_id) :=
  availNonneg_release_deck_loop _ cards
    (fun e hmem => he e (List.mem_of_mem_filter hmem)) hav

/-- All five ledger operations keep `quantity_available` nonnegative. -/
theorem availNonneg_applyOp {entries : List DeckEntry} {op : LedgerOp} {cards : Ledger}
    (hav : availNonneg cards) (hnn : opNonneg op) (he : entriesNonneg entries) :
    availNonneg (applyOp entries cards op) := by
  cases op with
  | add req => exact availNonneg_add_cards req cards hav hnn
  | remove req => exact availNonneg_remove_cards req cards hav
  | allocate req => exact availNonneg_allocate_loop req [] cards hav
  | release req => exact availNonneg_release_cards req cards hav hnn
  | releaseDeck i => exact availNonneg_release_decklist cards entries i he hav

/-- Every prefix of a sequence of operations preserves a property that each
single operation preserves. -/
theorem applyOps_take_preserves {P : Ledger → Prop} {Q : LedgerOp → Prop}
    (entries : List DeckEntry)
    (step : ∀ cards op, P cards → Q op → P (applyOp entries cards op)) :
    ∀ (ops : List LedgerOp) (cards : Ledger), P cards → (∀ op ∈ ops, Q op) →
      ∀ k : Nat, P (applyOps entries cards (ops.take k)) := by
  intro ops
  induction ops with
  | nil => intro cards h _ k; simpa [applyOps] using h
  | cons op rest ih =>
      intro cards h hq k
      cases k with
      | zero => simpa [applyOps] using h
      | succ m =>
          simp only [List.take_succ_cons, applyOps]
          exact ih _ (step _ _ h (hq _ (List.mem_cons_self _ _)))
            (fun o ho => hq o (List.mem_cons_of_mem _ ho)) m

/-! ## The shortage computation (claims C2 and C6) -/

/-- The read-only feasibility loop appends exactly the per-entry shortfalls. -/
theorem check_feasibility_loop_eq (cards : Ledger) :
    ∀ (rest acc : CardMap), (alKeys rest).Nodup →
      (∀ k ∈ alKeys rest, k ∉ alKeys acc) →
      check_feasibility_loop cards rest acc = acc ++ rest.filterMap (shortfall cards) := by
  intro rest
  induction rest with
  | nil => intro acc _ _; simp [check_feasibility_loop]
  | cons p rest' ih =>
      intro acc hnd hfresh
      obtain ⟨n, q⟩ := p
      have hnacc : n ∉ alKeys acc := hfresh n (by simp [alKeys])
      have hnd' : (alKeys rest').Nodup := by
        simpa [alKeys] using (List.nodup_cons.mp (by simpa [alKeys] using hnd)).2
      have hnrest : n ∉ alKeys rest' :=
        (List.nodup_cons.mp (by simpa [alKeys] using hnd)).1
      have hfresh' : ∀ v : Int, ∀ k ∈ alKeys rest', k ∉ alKeys (alInsert acc n v) := by
        intro v k hk hmem
        rcases mem_alKeys_alInsert hmem with h1 | h1
        · exact hfresh k (by simp [alKeys]; right; simpa [alKeys] using hk) h1
        · exact hnrest (h1 ▸ hk)
      have hfresh'' : ∀ k ∈ alKeys rest', k ∉ alKeys acc := by
        intro k hk
        exact hfresh k (by simp [alKeys]; right; simpa [alKeys] using hk)
      rcases hfind : findCard cards n with _ | card
      · simp only [check_feasibility_loop, hfind]
        rw [ih _ hnd' (hfresh' q), alInsert_of_not_mem _ hnacc]
        simp [List.filterMap_cons, shortfall, hfind]
      · by_cases hguard : card.quantity_available < q
        · simp only [check_feasibility_loop, hfind, if_pos hguard]
          rw [ih _ hnd' (hfresh' _), alInsert_of_not_mem _ hnacc]
          simp [List.filterMap_cons, shortfall, hfind, if_pos hguard]
        · simp only [check_feasibility_loop, hfind, if_neg hguard]
          rw [ih _ hnd' hfresh'']
          simp [List.filterMap_cons, shortfall, hfind, if_neg hguard]

/-- `calculate_needed_cards` runs the very same loop as
`check_allocation_feasibility`. -/
theorem calculate_needed_loop_eq_check (cards : Ledger) :
    ∀ (rest acc : CardMap),
      calculate_needed_loop cards rest acc = check_feasibility_loop cards rest acc := by
  intro rest
  induction rest with
  | nil => intro acc; rfl
  | cons p rest' ih =>
      intro acc
      obtain ⟨n, q⟩ := p
      rcases hfind : findCard cards n with _ | card
      · simp only [calculate_needed_loop, check_feasibility_loop, hfind]
        exact ih _
      · by_cases hguard : card.quantity_available < q
        · simp only [calculate_needed_loop, check_feasibility_loop, hfind,
            if_pos hguard]
          exact ih _
        · simp only [calculate_needed_loop, check_feasibility_loop, hfind,
            if_neg hguard]
          exact ih _

/-- The shortage dict the mutating allocation builds coincides with the
read-only loop's, entry by entry. -/
theorem allocate_loop_fst_eq_check (cards : Ledger) :
    ∀ (rest acc : CardMap) (cs : Ledger), (alKeys rest).Nodup →
      (∀ p ∈ rest, findCard cs p.1 = findCard cards p.1) →
      (allocate_loop rest acc cs).1 = check_feasibility_loop cards rest acc := by
  intro rest
  induction rest with
  | nil => intro acc cs _ _; rfl
  | cons p rest' ih =>
      intro acc cs hnd hagree
      obtain ⟨n, q⟩ := p
      have hnd' : (alKeys rest').Nodup := by
        simpa [alKeys] using (List.nodup_cons.mp (by simpa [alKeys] using hnd)).2
      have hnrest : n ∉ alKeys rest' :=
        (List.nodup_cons.mp (by simpa [alKeys] using hnd)).1
      have hfind : findCard cs n = findCard cards n :=
        hagree (n, q) (List.mem_cons_self _ _)
      have hagree' : ∀ f : Card → Card, (∀ c, (f c).name = c.name) →
          ∀ p ∈ rest', findCard (updateCard cs n f) p.1 = findCard cards p.1 := by
        intro f hf p hp
        have hpmem : p.1 ∈ alKeys rest' := List.mem_map.mpr ⟨p, hp, rfl⟩
        have hpn : p.1 ≠ n := fun hc => hnrest (hc ▸ hpmem)
        rw [findCard_updateCard cs n p.1 f hf, if_neg hpn]
        exact hagree p (List.mem_cons_of_mem _ hp)
      rcases hfindc : findCard cards n with _ | card
      · rw [hfindc] at hfind
        simp only [allocate_loop, check_feasibility_loop, hfind, hfindc]
        exact ih _ _ hnd' (fun p hp => hagree p (List.mem_cons_of_mem _ hp))
      · rw [hfindc] at hfind
        by_cases hguard : card.quantity_available < q
        · simp only [allocate_loop, check_feasibility_loop, hfind, hfindc,
            if_pos hguard]
          exact ih _ _ hnd' (hagree' _ (fun c => rfl))
        · simp only [allocate_loop, check_feasibility_loop, hfind, hfindc,
            if_neg hguard]
          exact ih _ _ hnd' (hagree' _ (fun c => rfl))

/-- Per-card characterization of the ledger the allocation loop leaves. -/
theorem allocate_loop_snd_findCard :
    ∀ (rest acc : CardMap) (cs : Ledger) (m : String), (alKeys rest).Nodup →
      findCard (allocate_loop rest acc cs).2 m =
        match alGet rest m with
        | none => findCard cs m
        | some q => (findCard cs m).map (fun c =>
            if c.quantity_available < q then { c with quantity_available := 0 }
            else { c with quantity_available := c.quantity_available - q }) := by
  intro rest
  induction rest with
  | nil => intro acc cs m _; simp [allocate_loop, alGet]
  | cons p rest' ih =>
      intro acc cs m hnd
      obtain ⟨n, q⟩ := p
      have hnd' : (alKeys rest').Nodup := by
        simpa [alKeys] using (List.nodup_cons.mp (by simpa [alKeys] using hnd)).2
      have hnrest : n ∉ alKeys rest' :=
        (List.nodup_cons.mp (by simpa [alKeys] using hnd)).1
      have halget : alGet rest' n = none := by
        rcases h : alGet rest' n with _ | v
        · rfl
        · exact absurd
            (List.mem_map.mpr ⟨(n, v), alGet_mem h, rfl⟩ : n ∈ alKeys rest') hnrest
      by_cases hm : m = n
      · subst hm
        rw [alGet_cons, if_pos rfl]
        rcases hfind : findCard cs m with _ | card
        · simp only [allocate_loop, hfind]
          rw [ih _ _ _ hnd', halget]
          simp [hfind]
        · by_cases hguard : card.quantity_available < q
          · simp only [allocate_loop, hfind, if_pos hguard]
            rw [ih _ _ _ hnd']
            simp only [halget]
            rw [findCard_updateCard cs m m
              (fun c => { c with quantity_available := 0 }) (fun c => rfl),
              if_pos rfl, hfind]
            simp [if_pos hguard]
          · simp only [allocate_loop, hfind, if_neg hguard]
            rw [ih _ _ _ hnd']
            simp only [halget]
            rw [findCard_updateCard cs m m
              (fun c => { c with quantity_available := c.quantity_available - q })
              (fun c => rfl), if_pos rfl, hfind]
            simp [if_neg hguard]
      · rw [alGet_cons, if_neg (fun hc => hm hc.symm)]
        rcases hfind : findCard cs n with _ | card
        · simp only [allocate_loop, hfind]
          exact ih _ _ _ hnd'
        · by_cases hguard : card.quantity_available < q
          · simp only [allocate_loop, hfind, if_pos hguard]
            rw [ih _ _ _ hnd', findCard_updateCard cs n m
              (fun c => { c with quantity_available := 0 }) (fun c => rfl), if_neg hm]
          · simp only [allocate_loop, hfind, if_neg hguard]
            rw [ih _ _ _ hnd', findCard_updateCard cs n m
              (fun c => { c with quantity_available := c.quantity_available - q })
              (fun c => rfl), if_neg hm]

/-- Shortage values stay positive when all requested values are positive. -/
theorem allocate_loop_fst_pos :
    ∀ (rest acc : CardMap) (cs : Ledger), (∀ p ∈ rest, 0 < p.2) →
      (∀ p ∈ acc, 0 < p.2) → ∀ p ∈ (allocate_loop rest acc cs).1, 0 < p.2 := by
  intro rest
  induction rest with
  | nil => intro acc cs _ hacc; exact hacc
  | cons p rest' ih =>
      intro acc cs hpos hacc
      obtain ⟨n, q⟩ := p
      have hq : (0 : Int) < q := hpos _ (List.mem_cons_self _ _)
      have hrest : ∀ p ∈ rest', (0 : Int) < p.2 :=
        fun x hx => hpos x (List.mem_cons_of_mem _ hx)
      have hins : ∀ v : Int, 0 < v → ∀ p ∈ alInsert acc n v, (0 : Int) < p.2 := by
        intro v hv x hx
        rcases mem_alInsert acc n v x hx with h1 | h1
        · exact hacc x h1
        · rw [h1]; exact hv
      rcases hfind : findCard cs n with _ | card
      · simp only [allocate_loop, hfind]
        exact ih _ _ hrest (hins q hq)
      · by_cases hguard : card.quantity_available < q
        · simp only [allocate_loop, hfind, if_pos hguard]
          exact ih _ _ hrest (hins _ (by omega))
        · simp only [allocate_loop, hfind, if_neg hguard]
          exact ih _ _ hrest hacc

/-- C2's last clause fails as stated: requesting 0 copies of a card that is
not in the ledger puts a zero-valued entry in the shortage map, so not every
shortage value is positive. -/
theorem C2_counterexample :
    (allocate_cards [] [("X", 0)]).1 = [("X", 0)] ∧
    ¬ (∀ p ∈ (allocate_cards [] [("X", 0)]).1, 0 < p.2) := by
  constructor <;> decide

/-- C2 (amended): for every ledger and requested dict (distinct keys), the
shortage map contains exactly, in request order: the full requested quantity
for each card missing from the ledger, and `requested - available` for each
card with `available < requested`; per card, availability is zeroed in the
short case, decremented by the request otherwise, and untouched for
unrequested cards; `quantity_available` never becomes negative; every
shortage value is positive provided every requested quantity is positive
(a missing card requested at quantity 0 would yield a zero entry); and the
two concrete scenarios behave as the claim states. -/
theorem C2_allocate_cards_spec :
    (∀ (cards : Ledger) (req : CardMap), (alKeys req).Nodup →
       (allocate_cards cards req).1 = req.filterMap (shortfall cards)
       ∧ ∀ m : String, findCard (allocate_cards cards req).2 m =
           match alGet req m with
           | none => findCard cards m
           | some q => (findCard cards m).map (fun c =>
               if c.quantity_available < q then { c with quantity_available := 0 }
               else { c with quantity_available := c.quantity_available - q }))
    ∧ (∀ (cards : Ledger) (req : CardMap), availNonneg cards →
       availNonneg (allocate_cards cards req).2)
    ∧ (∀ (cards : Ledger) (req : CardMap), (∀ p ∈ req, 0 < p.2) →
       ∀ p ∈ (allocate_cards cards req).1, 0 < p.2)
    ∧ allocate_cards [⟨"X", 4, 2⟩] [("X", 3)] = ([("X", 1)], [⟨"X", 4, 0⟩])
    ∧ allocate_cards [⟨"X", 4, 2⟩] [("X", 2)] = ([], [⟨"X", 4, 0⟩]) := by
  refine ⟨?_, ?_, ?_, by decide, by decide⟩
  · intro cards req hnd
    constructor
    · show (allocate_loop req [] cards).1 = _
      rw [allocate_loop_fst_eq_check cards req [] cards hnd (fun p _ => rfl),
        check_feasibility_loop_eq cards req [] hnd (by simp [alKeys])]
      simp
    · intro m
      exact allocate_loop_snd_findCard req [] cards m hnd
  · intro cards req hav
    exact availNonneg_allocate_loop req [] cards hav
  · intro cards req hpos
    exact allocate_loop_fst_pos req [] cards hpos (by simp)

/-- C2 witness: the amended allocation theorem applied to a concrete ledger
and request. -/
theorem C2_witness :
    (allocate_cards [⟨"Y", 5, 1⟩] [("Y", 4), ("Z", 2)]).1 =
      [("Y", 4), ("Z", 2)].filterMap (shortfall [⟨"Y", 5, 1⟩])
    ∧ ∀ p ∈ (allocate_cards [⟨"Y", 5, 1⟩] [("Y", 4), ("Z", 2)]).1, 0 < p.2 := by
  constructor
  · exact (C2_allocate_cards_spec.1 [⟨"Y", 5, 1⟩] [("Y", 4), ("Z", 2)] (by decide)).1
  · exact C2_allocate_cards_spec.2.2.1 [⟨"Y", 5, 1⟩] [("Y", 4), ("Z", 2)] (by decide)

/-- C6: `check_allocation_feasibility` and `calculate_needed_cards` both
return exactly the shortage map `allocate_cards` would return on the same
state.  Both are embedded as pure functions of the ledger — they perform no
update on any card row — so the no-mutation half of the claim holds by
construction of the embedding of their read-only sessions. -/
theorem C6_feasibility_equals_allocate (cards : Ledger) (req : CardMap)
    (hnd : (alKeys req).Nodup) :
    check_allocation_feasibility cards req = (allocate_cards cards req).1
    ∧ calculate_needed_cards cards req = (allocate_cards cards req).1 := by
  have h1 : (allocate_cards cards req).1 = check_feasibility_loop cards req [] :=
    allocate_loop_fst_eq_check cards req [] cards hnd (fun p _ => rfl)
  constructor
  · rw [h1]; rfl
  · rw [h1]
    exact calculate_needed_loop_eq_check cards req []

/-- C6 witness: the refinement theorem applied to a concrete ledger and
request. -/
theorem C6_witness :
    check_allocation_feasibility [⟨"X", 4, 2⟩] [("X", 3), ("Y", 1)] =
      (allocate_cards [⟨"X", 4, 2⟩] [("X", 3), ("Y", 1)]).1
    ∧ calculate_needed_cards [⟨"X", 4, 2⟩] [("X", 3), ("Y", 1)] =
      (allocate_cards [⟨"X", 4, 2⟩] [("X", 3), ("Y", 1)]).1 :=
  C6_feasibility_equals_allocate _ _ (by decide)

/-! ## Release semantics (claim C5) -/

/-- The release loop raises exactly when some requested card exists and the
release would push its availability above the owned quantity. -/
theorem release_loop_error_iff :
    ∀ (req : CardMap) (cards : Ledger), (alKeys req).Nodup →
      ((release_cards_loop req cards).2.isSome ↔
        ∃ p ∈ req, ∃ c, findCard cards p.1 = some c ∧
          c.quantity_owned < c.quantity_available + p.2) := by
  intro req
  induction req with
  | nil => intro cards _; simp [release_cards_loop]
  | cons p rest ih =>
      intro cards hnd
      obtain ⟨n, q⟩ := p
      have hnd' : (alKeys rest).Nodup := by
        simpa [alKeys] using (List.nodup_cons.mp (by simpa [alKeys] using hnd)).2
      have hnrest : n ∉ alKeys rest :=
        (List.nodup_cons.mp (by simpa [alKeys] using hnd)).1
      rcases hfind : findCard cards n with _ | card
      · simp only [release_cards_loop, hfind]
        rw [ih cards hnd']
        constructor
        · rintro ⟨p, hp, hc⟩
          exact ⟨p, List.mem_cons_of_mem _ hp, hc⟩
        · rintro ⟨p, hp, c, hc, hlt⟩
          rcases List.mem_cons.mp hp with h1 | h1
          · rw [h1] at hc
            dsimp only at hc
            rw [hfind] at hc
            cases hc
          · exact ⟨p, h1, c, hc, hlt⟩
      · by_cases hguard : card.quantity_owned < card.quantity_available + q
        · simp only [release_cards_loop, hfind, if_pos hguard]
          constructor
          · intro _
            exact ⟨(n, q), List.mem_cons_self _ _, card, hfind, hguard⟩
          · intro _
            simp
        · simp only [release_cards_loop, hfind, if_neg hguard]
          rw [ih _ hnd']
          constructor
          · rintro ⟨p, hp, c, hc, hlt⟩
            have hpmem : p.1 ∈ alKeys rest := List.mem_map.mpr ⟨p, hp, rfl⟩
            have hpn : p.1 ≠ n := fun hc2 => hnrest (hc2 ▸ hpmem)
            rw [findCard_updateCard cards n p.1
              (fun c => { c with quantity_available := c.quantity_available + q })
              (fun c => rfl), if_neg hpn] at hc
            exact ⟨p, List.mem_cons_of_mem _ hp, c, hc, hlt⟩
          · rintro ⟨p, hp, c, hc, hlt⟩
            rcases List.mem_cons.mp hp with h1 | h1
            · rw [h1] at hc hlt
              dsimp only at hc hlt
              rw [hfind] at hc
              cases Option.some.inj hc
              exact absurd hlt hguard
            · have hpmem : p.1 ∈ alKeys rest := List.mem_map.mpr ⟨p, h1, rfl⟩
              have hpn : p.1 ≠ n := fun hc2 => hnrest (hc2 ▸ hpmem)
              refine ⟨p, h1, c, ?_, hlt⟩
              rw [findCard_updateCard cards n p.1
                (fun c => { c with quantity_available := c.quantity_available + q })
                (fun c => rfl), if_neg hpn]
              exact hc

/-- The transactional wrapper returns the loop's error unchanged. -/
theorem release_cards_snd_eq (cards : Ledger) (req : CardMap) :
    (release_cards cards req).2 = (release_cards_loop req cards).2 := by
  unfold release_cards
  rcases hres : release_cards_loop req cards with ⟨cards', e⟩
  cases e <;> simp

/-- A release over cards all absent from the ledger is a silent no-op. -/
theorem release_loop_skips_absent :
    ∀ (req : CardMap) (cards : Ledger), (∀ p ∈ req, findCard cards p.1 = none) →
      release_cards_loop req cards = (cards, none) := by
  intro req
  induction req with
  | nil => intro cards _; rfl
  | cons p rest ih =>
      intro cards habs
      obtain ⟨n, q⟩ := p
      have hfind : findCard cards n = none := habs (n, q) (List.mem_cons_self _ _)
      simp only [release_cards_loop, hfind]
      exact ih cards (fun p hp => habs p (List.mem_cons_of_mem _ hp))

/-! ## Card-list parsing (claims C9 and C10) -/

theorem counterAdd_cons (p : String × Int) (m : CardMap) (k : String) (v : Int) :
    counterAdd (p :: m) k v =
      if p.1 = k then (p.1, p.2 + v) :: m else p :: counterAdd m k v := by
  by_cases h : p.1 = k <;> simp [counterAdd, h]

theorem alGetD_counterAdd (m : CardMap) (k : String) (v : Int) (n : String) :
    alGetD (counterAdd m k v) n 0 = alGetD m n 0 + if k = n then v else 0 := by
  induction m with
  | nil =>
      by_cases h : k = n <;> simp [counterAdd, alGetD, alGet_cons, alGet, h]
  | cons p rest ih =>
      rw [counterAdd_cons]
      by_cases h : p.1 = k
      · rw [if_pos h]
        by_cases hn : p.1 = n
        · have hkn : k = n := h ▸ hn
          simp [alGetD, alGet_cons, hn, hkn]
        · have hkn : k ≠ n := fun hc => hn (h.symm ▸ hc)
          simp [alGetD, alGet_cons, hn, hkn]
      · rw [if_neg h]
        by_cases hn : p.1 = n
        · have hkn : k ≠ n := fun hc => h (hn.trans hc.symm)
          simp [alGetD, alGet_cons, hn, hkn]
        · simp only [alGetD, alGet_cons, if_neg hn]
          exact ih

/-- The error accumulator of the parsing loop collects exactly the card
lines that are malformed, in input order. -/
theorem parse_loop_errors :
    ∀ (lines errs : List String) (cards : CardMap),
      (parse_cardlist_loop lines errs cards).1 =
        errs ++ lines.filter (fun l => is_cardline l && line_malformed l) := by
  intro lines
  induction lines with
  | nil => intro errs cards; simp [parse_cardlist_loop]
  | cons line rest ih =>
      intro errs cards
      by_cases hskip : skips_line line
      · simp only [parse_cardlist_loop, hskip, if_true]
        rw [ih]
        simp [List.filter_cons, is_cardline, hskip]
      · rcases hsplit : split_maxsplit1 (py_strip line) with _ | ⟨qs, tl⟩
        · simp only [parse_cardlist_loop, hskip, if_false, hsplit, Bool.false_eq_true]
          rw [ih]
          simp [List.filter_cons, is_cardline, hskip, line_malformed, hsplit]
        · rcases tl with _ | ⟨nm, tl2⟩
          · simp only [parse_cardlist_loop, hskip, if_false, hsplit, Bool.false_eq_true]
            rw [ih]
            simp [List.filter_cons, is_cardline, hskip, line_malformed, hsplit]
          · rcases tl2 with _ | ⟨x, tl3⟩
            · by_cases hdig : str_isdigit qs
              · simp only [parse_cardlist_loop, hskip, if_false, hsplit, hdig,
                  Bool.false_eq_true, Bool.not_true]
                rw [ih]
                simp [List.filter_cons, is_cardline, hskip, line_malformed, hsplit, hdig]
              · have hdig' : str_isdigit qs = false := by simpa using hdig
                simp only [parse_cardlist_loop, hskip, if_false, hsplit, hdig',
                  Bool.not_false, if_true, Bool.false_eq_true]
                rw [ih]
                simp [List.filter_cons, is_cardline, hskip, line_malformed, hsplit, hdig]
            · simp only [parse_cardlist_loop, hskip, if_false, hsplit,
                Bool.false_eq_true]
              rw [ih]
              simp [List.filter_cons, is_cardline, hskip, line_malformed, hsplit]

/-- The running counter of the parsing loop: each name maps to its previous
total plus the contributions of the remaining well-formed card lines. -/
theorem parse_loop_counts :
    ∀ (lines errs : List String) (cards : CardMap) (name : String),
      alGetD (parse_cardlist_loop lines errs cards).2 name 0 =
        alGetD cards name 0 + lines_total lines name := by
  intro lines
  induction lines with
  | nil => intro errs cards name; simp [parse_cardlist_loop, lines_total]
  | cons line rest ih =>
      intro errs cards name
      by_cases hskip : skips_line line
      · simp only [parse_cardlist_loop, hskip, if_true]
        rw [ih]
        simp [lines_total, List.filterMap_cons, parsed_entry, hskip]
      · rcases hsplit : split_maxsplit1 (py_strip line) with _ | ⟨qs, tl⟩
        · simp only [parse_cardlist_loop, hskip, if_false, hsplit, Bool.false_eq_true]
          rw [ih]
          simp [lines_total, List.filterMap_cons, parsed_entry, hskip, hsplit]
        · rcases tl with _ | ⟨nm, tl2⟩
          · simp only [parse_cardlist_loop, hskip, if_false, hsplit, Bool.false_eq_true]
            rw [ih]
            simp [lines_total, List.filterMap_cons, parsed_entry, hskip, hsplit]
          · rcases tl2 with _ | ⟨x, tl3⟩
            · by_cases hdig : str_isdigit qs
              · simp only [parse_cardlist_loop, hskip, if_false, hsplit, hdig,
                  Bool.false_eq_true, Bool.not_true]
                rw [ih, alGetD_counterAdd]
                by_cases hnm : nm = name
                · simp [lines_total, List.filterMap_cons, parsed_entry, hskip,
                    hsplit, hdig, List.filter_cons, hnm]
                  omega
                · simp [lines_total, List.filterMap_cons, parsed_entry, hskip,
                    hsplit, hdig, List.filter_cons, hnm]
              · have hdig' : str_isdigit qs = false := by simpa using hdig
                simp only [parse_cardlist_loop, hskip, if_false, hsplit, hdig',
                  Bool.not_false, if_true, Bool.false_eq_true]
                rw [ih]
                simp [lines_total, List.filterMap_cons, parsed_entry, hskip,
                  hsplit, hdig]
            · simp only [parse_cardlist_loop, hskip, if_false, hsplit,
                Bool.false_eq_true]
              rw [ih]
              simp [lines_total, List.filterMap_cons, parsed_entry, hskip, hsplit]

/-- C9's "if and only if" fails as stated: the line "x Bolt" is a malformed
card line in the claim's sense (two tokens, non-numeric quantity "x"), yet
`parse_cardlist` silently skips it — any line whose first character is not a
digit is treated as a non-card line — and returns the empty map instead of
raising. -/
theorem C9_counterexample :
    line_malformed "x Bolt" = true ∧ is_cardline "x Bolt" = false ∧
    parse_cardlist ["x Bolt"] = .ok [] := by
  refine ⟨by decide, by decide, by decide⟩

/-- C9 (amended): `parse_cardlist` raises `CardListInputError` iff some
*digit-initial* line (the only lines treated as card lines; comments, empty
lines, and any other line not starting with a digit are skipped) is
malformed — wrong token count after splitting at the first space, or a
non-numeric quantity token — and the raised error carries exactly all
offending lines in input order; the two concrete examples behave as the
claim states. -/
theorem C9_parse_cardlist_errors :
    (∀ lines : List String,
       ((∃ e, parse_cardlist lines = .error e) ↔
         ∃ l ∈ lines, is_cardline l = true ∧ line_malformed l = true)
       ∧ ∀ e, parse_cardlist lines = .error e →
           e.line_errors = lines.filter (fun l => is_cardline l && line_malformed l))
    ∧ parse_cardlist ["4 Lightning Bolt", "2 Counterspell", "# comment", ""] =
        .ok [("Lightning Bolt", 4), ("Counterspell", 2)]
    ∧ parse_cardlist ["4"] = .error ⟨["4"]⟩ := by
  refine ⟨?_, by decide, by decide⟩
  intro lines
  have hloop := parse_loop_errors lines [] []
  rw [List.nil_append] at hloop
  constructor
  · simp only [parse_cardlist]
    rw [hloop]
    by_cases hf : lines.filter (fun l => is_cardline l && line_malformed l) = []
    · rw [hf]
      simp only [List.isEmpty_nil, if_true]
      constructor
      · rintro ⟨e, he⟩
        cases he
      · rintro ⟨l, hl, h1, h2⟩
        have hall := List.filter_eq_nil_iff.mp hf l hl
        simp [h1, h2] at hall
    · have hne : (lines.filter (fun l => is_cardline l && line_malformed l)).isEmpty
          = false := by
        rcases h : lines.filter (fun l => is_cardline l && line_malformed l) with
          _ | ⟨a, as⟩
        · exact absurd h hf
        · rfl
      rw [hne]
      simp only [Bool.false_eq_true, if_false]
      constructor
      · intro _
        obtain ⟨x, hx⟩ := List.exists_mem_of_ne_nil _ hf
        obtain ⟨hxl, hxb⟩ := List.mem_filter.mp hx
        exact ⟨x, hxl, by simpa using hxb⟩
      · intro _
        exact ⟨⟨lines.filter (fun l => is_cardline l && line_malformed l)⟩, rfl⟩
  · intro e he
    simp only [parse_cardlist] at he
    rw [hloop] at he
    by_cases hf : (lines.filter (fun l => is_cardline l && line_malformed l)).isEmpty
        = true
    · rw [if_pos hf] at he
      cases he
    · rw [if_neg hf] at he
      have hinj := Except.error.inj he
      rw [← hinj]

/-- C9 witness: the error payload equation applied at the claim's concrete
failing input. -/
theorem C9_witness :
    (CardListInputError.mk ["4"]).line_errors =
      ["4"].filter (fun l => is_cardline l && line_malformed l) :=
  (C9_parse_cardlist_errors.1 ["4"]).2 ⟨["4"]⟩ (by decide)

/-- C10: on success, each name's parsed quantity is the *sum* of the
quantities of all well-formed card lines bearing that name (the loop uses a
counter, not overwrite), and the duplicate lines "2 Bolt"/"3 Bolt" parse to
Bolt = 5. -/
theorem C10_duplicate_lines_sum :
    (∀ (lines : List String) (m : CardMap), parse_cardlist lines = .ok m →
       ∀ name : String, alGetD m name 0 = lines_total lines name)
    ∧ parse_cardlist ["2 Bolt", "3 Bolt"] = .ok [("Bolt", 5)] := by
  refine ⟨?_, by decide⟩
  intro lines m hok name
  simp only [parse_cardlist] at hok
  by_cases hf : (parse_cardlist_loop lines [] []).1.isEmpty = true
  · rw [if_pos hf] at hok
    have hm : m = (parse_cardlist_loop lines [] []).2 := (Except.ok.inj hok).symm
    rw [hm, parse_loop_counts lines [] [] name]
    simp [alGetD, alGet]
  · rw [if_neg hf] at hok
    cases hok

/-- C10 witness: the summation theorem applied at the duplicate-line input. -/
theorem C10_witness :
    alGetD [("Bolt", 5)] "Bolt" 0 = lines_total ["2 Bolt", "3 Bolt"] "Bolt" :=
  C10_duplicate_lines_sum.1 ["2 Bolt", "3 Bolt"] [("Bolt", 5)] (by decide) "Bolt"

/-! ## Auto-provisioning (claim C3) -/

theorem findCard_append_singleton (cards : Ledger) (c : Card) (m : String) :
    findCard (cards ++ [c]) m =
      match findCard cards m with
      | some d => some d
      | none => if c.name = m then some c else none := by
  induction cards with
  | nil =>
      by_cases h : c.name = m <;> simp [findCard, List.find?_cons, h]
  | cons d rest ih =>
      rw [List.cons_append, findCard_cons, findCard_cons]
      by_cases h : d.name = m
      · rw [if_pos h, if_pos h]
      · rw [if_neg h, if_neg h, ih]

/-- The single wrapper equation for the shortage map of `allocate_cards`. -/
theorem allocate_cards_fst_eq (cards : Ledger) (req : CardMap)
    (hnd : (alKeys req).Nodup) :
    (allocate_cards cards req).1 = req.filterMap (shortfall cards) := by
  show (allocate_loop req [] cards).1 = _
  rw [allocate_loop_fst_eq_check cards req [] cards hnd (fun p _ => rfl),
    check_feasibility_loop_eq cards req [] hnd (by simp [alKeys])]
  simp

/-- Per-card characterization of `add_cards`. -/
theorem findCard_add_cards :
    ∀ (req : CardMap) (cards : Ledger) (m : String), (alKeys req).Nodup →
      findCard (add_cards cards req) m =
        match alGet req m with
        | none => findCard cards m
        | some v =>
            match findCard cards m with
            | none => some ⟨m, v, v⟩
            | some c =>
                some { c with
                  quantity_owned := c.quantity_owned + v,
                  quantity_available := c.quantity_available + v } := by
  intro req
  induction req with
  | nil => intro cards m _; simp [add_cards, alGet]
  | cons p rest ih =>
      intro cards m hnd
      obtain ⟨n, q⟩ := p
      have hnd' : (alKeys rest).Nodup := by
        simpa [alKeys] using (List.nodup_cons.mp (by simpa [alKeys] using hnd)).2
      have hnrest : n ∉ alKeys rest :=
        (List.nodup_cons.mp (by simpa [alKeys] using hnd)).1
      have halget : alGet rest n = none := by
        rcases h : alGet rest n with _ | v
        · rfl
        · exact absurd
            (List.mem_map.mpr ⟨(n, v), alGet_mem h, rfl⟩ : n ∈ alKeys rest) hnrest
      by_cases hm : m = n
      · subst hm
        rw [alGet_cons, if_pos rfl]
        rcases hfind : findCard cards m with _ | card
        · simp only [add_cards, hfind]
          rw [ih _ _ hnd']
          simp only [halget]
          rw [findCard_append_singleton, hfind]
          simp
        · simp only [add_cards, hfind]
          rw [ih _ _ hnd']
          simp only [halget]
          rw [findCard_updateCard cards m m
            (fun c => { c with
              quantity_owned := c.quantity_owned + q,
              quantity_available := c.quantity_available + q })
            (fun c => rfl), if_pos rfl, hfind]
          simp
      · rw [alGet_cons, if_neg (fun hc => hm hc.symm)]
        rcases hfind : findCard cards n with _ | card
        · simp only [add_cards, hfind]
          have hfc : findCard (cards ++ [⟨n, q, q⟩]) m = findCard cards m := by
            rw [findCard_append_singleton]
            rcases hfm : findCard cards m with _ | d
            · exact if_neg (fun hc => hm hc.symm)
            · rfl
          rw [ih _ _ hnd', hfc]
        · simp only [add_cards, hfind]
          rw [ih _ _ hnd', findCard_updateCard cards n m
            (fun c => { c with
              quantity_owned := c.quantity_owned + q,
              quantity_available := c.quantity_available + q })
            (fun c => rfl), if_neg hm]

/-- Shortage keys are drawn from the request keys, in order. -/
theorem alKeys_filterMap_shortfall_sublist (cards : Ledger) :
    ∀ req : CardMap,
      (alKeys (req.filterMap (shortfall cards))).Sublist (alKeys req) := by
  intro req
  induction req with
  | nil => simp [alKeys]
  | cons p rest ih =>
      rw [List.filterMap_cons]
      rcases hsf : shortfall cards p with _ | s
      · exact ih.trans (by simp [alKeys])
      · have hkey : s.1 = p.1 := by
          unfold shortfall at hsf
          rcases hfind : findCard cards p.1 with _ | c
          · simp only [hfind] at hsf
            cases Option.some.inj hsf
            rfl
          · simp only [hfind] at hsf
            by_cases hguard : c.quantity_available < p.2
            · rw [if_pos hguard] at hsf
              cases Option.some.inj hsf
              rfl
            · rw [if_neg hguard] at hsf
              cases hsf
        show (alKeys (s :: _)).Sublist (alKeys (p :: rest))
        simp only [alKeys, List.map_cons]
        rw [hkey]
        exact List.Sublist.cons₂ _ ih

/-- What membership in the shortage map tells about the original ledger. -/
theorem mem_filterMap_shortfall {cards : Ledger} {req : CardMap} {n : String} {s : Int}
    (h : (n, s) ∈ req.filterMap (shortfall cards)) :
    ∃ q, (n, q) ∈ req ∧
      ((findCard cards n = none ∧ s = q) ∨
       (∃ c, findCard cards n = some c ∧ c.quantity_available < q ∧
         s = q - c.quantity_available)) := by
  rw [List.mem_filterMap] at h
  obtain ⟨p, hp, hsf⟩ := h
  obtain ⟨pn, pq⟩ := p
  unfold shortfall at hsf
  dsimp only at hsf
  rcases hfind : findCard cards pn with _ | c
  · simp only [hfind] at hsf
    obtain ⟨h1, h2⟩ := Prod.mk.injEq .. ▸ Option.some.inj hsf
    subst h1; subst h2
    exact ⟨pq, hp, Or.inl ⟨hfind, rfl⟩⟩
  · simp only [hfind] at hsf
    by_cases hguard : c.quantity_available < pq
    · rw [if_pos hguard] at hsf
      obtain ⟨h1, h2⟩ := Prod.mk.injEq .. ▸ Option.some.inj hsf
      subst h1
      exact ⟨pq, hp, Or.inr ⟨c, hfind, hguard, h2.symm⟩⟩
    · rw [if_neg hguard] at hsf
      cases hsf

/-- A run of the allocation loop over fully coverable requests reports no
shortage. -/
theorem allocate_loop_full :
    ∀ (req ins : CardMap) (cards : Ledger), (alKeys req).Nodup →
      (∀ p ∈ req, ∃ c, findCard cards p.1 = some c ∧ p.2 ≤ c.quantity_available) →
      (allocate_loop req ins cards).1 = ins := by
  intro req
  induction req with
  | nil => intro ins cards _ _; rfl
  | cons p rest ih =>
      intro ins cards hnd hcov
      obtain ⟨n, q⟩ := p
      have hnd' : (alKeys rest).Nodup := by
        simpa [alKeys] using (List.nodup_cons.mp (by simpa [alKeys] using hnd)).2
      have hnrest : n ∉ alKeys rest :=
        (List.nodup_cons.mp (by simpa [alKeys] using hnd)).1
      obtain ⟨c, hfind, hle⟩ := hcov (n, q) (List.mem_cons_self _ _)
      have hguard : ¬ c.quantity_available < q := not_lt.mpr hle
      simp only [allocate_loop, hfind, if_neg hguard]
      refine ih _ _ hnd' ?_
      intro p hp
      obtain ⟨d, hd, hdle⟩ := hcov p (List.mem_cons_of_mem _ hp)
      have hpn : p.1 ≠ n := fun hc =>
        hnrest (hc ▸ (List.mem_map.mpr ⟨p, hp, rfl⟩ : p.1 ∈ alKeys rest))
      refine ⟨d, ?_, hdle⟩
      rw [findCard_updateCard cards n p.1
        (fun c => { c with quantity_available := c.quantity_available - q })
        (fun c => rfl), if_neg hpn]
      exact hd

/-- After auto-provisioning exactly the shortage, every shortage entry is
fully available. -/
theorem provision_entry_covered (cards : Ledger) (new_cards : CardMap)
    (hnd : (alKeys new_cards).Nodup) :
    ∀ p ∈ (allocate_cards cards new_cards).1,
      ∃ c, findCard (add_cards (allocate_cards cards new_cards).2
          (allocate_cards cards new_cards).1) p.1 = some c ∧
        p.2 ≤ c.quantity_available := by
  intro p hp
  obtain ⟨n, s⟩ := p
  have hfst := allocate_cards_fst_eq cards new_cards hnd
  have hnd2 : (alKeys (allocate_cards cards new_cards).1).Nodup := by
    rw [hfst]
    exact hnd.sublist (alKeys_filterMap_shortfall_sublist cards new_cards)
  have halg_ins : alGet (allocate_cards cards new_cards).1 n = some s :=
    alGet_of_mem_nodup hnd2 hp
  rw [hfst] at hp
  obtain ⟨q, hq, hcase⟩ := mem_filterMap_shortfall hp
  have halg_req : alGet new_cards n = some q := alGet_of_mem_nodup hnd hq
  have hsnd : findCard (allocate_cards cards new_cards).2 n =
      match alGet new_cards n with
      | none => findCard cards n
      | some q => (findCard cards n).map (fun c =>
          if c.quantity_available < q then { c with quantity_available := 0 }
          else { c with quantity_available := c.quantity_available - q }) :=
    allocate_loop_snd_findCard new_cards [] cards n hnd
  rw [halg_req] at hsnd
  simp only at hsnd
  have hadd := findCard_add_cards (allocate_cards cards new_cards).1
      (allocate_cards cards new_cards).2 n hnd2
  rw [halg_ins] at hadd
  rcases hcase with ⟨hnone, rfl⟩ | ⟨c, hsome, hlt, rfl⟩
  · rw [hnone] at hsnd
    simp only [Option.map_none'] at hsnd
    rw [hsnd] at hadd
    exact ⟨⟨n, s, s⟩, hadd, le_refl _⟩
  · rw [hsome] at hsnd
    simp only [Option.map_some', if_pos hlt] at hsnd
    rw [hsnd] at hadd
    refine ⟨_, hadd, ?_⟩
    show q - c.quantity_available ≤ 0 + (q - c.quantity_available)
    omega

/-- The auto-provisioning block of `apply_deck_update` never records the
shortage warning: the retry of exactly the shortage always succeeds, so the
preview's error list passes through unchanged. -/
theorem allocate_with_provision_errors (cards : Ledger) (new_cards : CardMap)
    (preview : DeckUpdatePreview) (hnd : (alKeys new_cards).Nodup) :
    (allocate_with_provision cards new_cards preview).2.errors = preview.errors := by
  unfold allocate_with_provision
  by_cases hins : (allocate_cards cards new_cards).1.isEmpty
  · simp only [hins, if_true]
  · have hnd2 : (alKeys (allocate_cards cards new_cards).1).Nodup := by
      rw [allocate_cards_fst_eq cards new_cards hnd]
      exact hnd.sublist (alKeys_filterMap_shortfall_sublist cards new_cards)
    have hret : (allocate_cards (add_cards (allocate_cards cards new_cards).2
        (allocate_cards cards new_cards).1) (allocate_cards cards new_cards).1).1
        = [] :=
      allocate_loop_full _ _ _ hnd2 (provision_entry_covered cards new_cards hnd)
    simp only [hins, Bool.false_eq_true, if_false, hret, List.isEmpty_nil, if_true]

/-! ## The swap calculator (claim C4) -/

/-- Building the normalization dict: when no two keys collide after
lowercasing, no insertion overwrites, so the dict is the map in order. -/
theorem normalized_build (m : CardMap) (hnd : lowerKeysNodup m) :
    ∀ acc : List (String × (String × Int)),
      (∀ p ∈ m, py_lower p.1 ∉ alKeys acc) →
      m.foldl (fun a p => alInsert a (py_lower p.1) (p.1, p.2)) acc =
        acc ++ m.map (fun p => (py_lower p.1, (p.1, p.2))) := by
  induction m with
  | nil => intro acc _; simp
  | cons p rest ih =>
      intro acc hfresh
      have hnd' : lowerKeysNodup rest := by
        simpa [lowerKeysNodup] using
          (List.nodup_cons.mp (by simpa [lowerKeysNodup] using hnd)).2
      have hnrest : py_lower p.1 ∉ rest.map (fun x => py_lower x.1) :=
        (List.nodup_cons.mp (by simpa [lowerKeysNodup] using hnd)).1
      rw [List.foldl_cons,
        alInsert_of_not_mem _ (hfresh p (List.mem_cons_self _ _)),
        ih hnd' _ ?_]
      · simp
      · intro x hx hmem
        rw [alKeys, List.map_append] at hmem
        rcases List.mem_append.mp hmem with h1 | h1
        · exact hfresh x (List.mem_cons_of_mem _ hx) h1
        · have hxx : py_lower x.1 = py_lower p.1 := by simpa [alKeys] using h1
          exact hnrest (hxx ▸ List.mem_map.mpr ⟨x, hx, rfl⟩)

/-- Lookup in the normalization dict is case-insensitive lookup in the
original map. -/
theorem alGet_map_normalized :
    ∀ (m : CardMap) (k : String),
      alGet (m.map (fun p => (py_lower p.1, (p.1, p.2)))) (py_lower k) =
        ciGet m k := by
  intro m k
  induction m with
  | nil => rfl
  | cons p rest ih =>
      rw [List.map_cons, alGet_cons]
      by_cases h : py_lower p.1 = py_lower k
      · rw [if_pos h]
        simp [ciGet, List.find?_cons, h]
      · rw [if_neg h]
        rw [ih]
        simp [ciGet, List.find?_cons, beq_eq_false_iff_ne.mpr h]

/-- One side of the swap calculator: folding the body over a normalization
dict appends exactly the positive case-insensitive differences, keyed by
the original casing. -/
theorem swaps_fold_eq (lookup_src : List (String × (String × Int))) (other : CardMap)
    (hlk : ∀ k : String, alGet lookup_src (py_lower k) = ciGet other k) :
    ∀ (tgt acc : CardMap), (alKeys tgt).Nodup →
      (∀ p ∈ tgt, p.1 ∉ alKeys acc) →
      (tgt.map (fun p => (py_lower p.1, (p.1, p.2)))).foldl (fun acc q =>
        match alGet lookup_src q.1 with
        | some cp => if cp.2 < q.2.2 then alInsert acc q.2.1 (q.2.2 - cp.2) else acc
        | none => alInsert acc q.2.1 q.2.2) acc
      = acc ++ tgt.filterMap (swap_spec other) := by
  intro tgt
  induction tgt with
  | nil => intro acc _ _; simp
  | cons p rest ih =>
      intro acc hnd hfresh
      have hnd' : (alKeys rest).Nodup := by
        simpa [alKeys] using (List.nodup_cons.mp (by simpa [alKeys] using hnd)).2
      have hnrest : p.1 ∉ alKeys rest :=
        (List.nodup_cons.mp (by simpa [alKeys] using hnd)).1
      have hfr : ∀ v : Int, ∀ x ∈ rest, x.1 ∉ alKeys (acc ++ [(p.1, v)]) := by
        intro v x hx hmem
        rw [alKeys, List.map_append] at hmem
        rcases List.mem_append.mp hmem with h1 | h1
        · exact hfresh x (List.mem_cons_of_mem _ hx) h1
        · have hxx : x.1 = p.1 := by simpa [alKeys] using h1
          exact hnrest (hxx ▸ List.mem_map.mpr ⟨x, hx, rfl⟩)
      have hfr' : ∀ x ∈ rest, x.1 ∉ alKeys acc :=
        fun x hx => hfresh x (List.mem_cons_of_mem _ hx)
      have hget := hlk p.1
      rw [List.map_cons, List.foldl_cons]
      rcases hci : ciGet other p.1 with _ | op
      · rw [hci] at hget
        simp only [hget]
        rw [alInsert_of_not_mem _ (hfresh p (List.mem_cons_self _ _)),
          ih _ hnd' (hfr p.2)]
        simp [List.filterMap_cons, swap_spec, hci]
      · rw [hci] at hget
        by_cases hguard : op.2 < p.2
        · simp only [hget, if_pos hguard]
          rw [alInsert_of_not_mem _ (hfresh p (List.mem_cons_self _ _)),
            ih _ hnd' (hfr _)]
          simp [List.filterMap_cons, swap_spec, hci, if_pos hguard]
        · simp only [hget, if_neg hguard]
          rw [ih _ hnd' hfr']
          simp [List.filterMap_cons, swap_spec, hci, if_neg hguard]

/-- The normalization fold keeps its keys duplicate-free for any input. -/
theorem normalized_keys_nodup (m : CardMap) :
    ∀ acc : List (String × (String × Int)), (alKeys acc).Nodup →
      (alKeys (m.foldl (fun a p => alInsert a (py_lower p.1) (p.1, p.2)) acc)).Nodup := by
  induction m with
  | nil => intro acc h; exact h
  | cons p rest ih =>
      intro acc h
      rw [List.foldl_cons]
      exact ih _ (alKeys_nodup_alInsert _ _ h)

/-- Folding the swap body over any list whose entries all look themselves up
to an equal quantity inserts nothing. -/
theorem swaps_fold_self (N : List (String × (String × Int))) :
    ∀ (L : List (String × (String × Int))) (acc : CardMap),
      (∀ q ∈ L, alGet N q.1 = some q.2) →
      L.foldl (fun acc q =>
        match alGet N q.1 with
        | some cp => if cp.2 < q.2.2 then alInsert acc q.2.1 (q.2.2 - cp.2) else acc
        | none => alInsert acc q.2.1 q.2.2) acc = acc := by
  intro L
  induction L with
  | nil => intro acc _; rfl
  | cons q rest ih =>
      intro acc hall
      rw [List.foldl_cons]
      have hq := hall q (List.mem_cons_self _ _)
      simp only [hq, lt_self_iff_false, if_false]
      exact ih acc (fun x hx => hall x (List.mem_cons_of_mem _ hx))

/-! ## Claim C1 -/

/-- C1, as stated, is false: `release_decklist_allocation` adds the deck's
entry quantities to `quantity_available` with no upper-bound check, so a
ledger satisfying `0 ≤ quantity_available ≤ quantity_owned` (here
`X: owned=0, available=0`) is driven to `available=4 > owned=0` by a single
`release_decklist_allocation` call whose deck entries exceed the deck's
actual allocation. -/
theorem C1_counterexample :
    ledgerInv [⟨"X", 0, 0⟩] ∧
    ¬ ledgerInv (applyOps [⟨1, "X", 4⟩] [⟨"X", 0, 0⟩] [.releaseDeck 1]) := by
  constructor <;> decide

/-- C1 (amended): starting from a ledger in which every card satisfies
`0 ≤ quantity_available ≤ quantity_owned`, every sequence of add_cards /
remove_cards / allocate_cards / release_cards calls with nonnegative
quantities preserves the full invariant after each call; once
`release_decklist_allocation` is allowed as well (with nonnegative deck
entry quantities), only `0 ≤ quantity_available` is still preserved after
each call, `quantity_available ≤ quantity_owned` is not. -/
theorem C1_ledger_invariant_amended (entries : List DeckEntry) (cards : Ledger)
    (ops : List LedgerOp) (hinv : ledgerInv cards)
    (hnn : ∀ op ∈ ops, opNonneg op) :
    ((∀ op ∈ ops, ¬ isReleaseDeck op) →
       ∀ k : Nat, ledgerInv (applyOps entries cards (ops.take k)))
    ∧ (entriesNonneg entries →
       ∀ k : Nat, availNonneg (applyOps entries cards (ops.take k))) := by
  constructor
  · intro hnr k
    exact @applyOps_take_preserves ledgerInv
      (fun op => opNonneg op ∧ ¬ isReleaseDeck op) entries
      (fun cs op h hq => ledgerInv_applyOp h hq.1 hq.2) ops cards hinv
      (fun op ho => ⟨hnn op ho, hnr op ho⟩) k
  · intro he k
    exact @applyOps_take_preserves availNonneg opNonneg entries
      (fun cs op h hq => availNonneg_applyOp h hq he) ops cards
      (fun c hc => (hinv c hc).1) hnn k

/-- C1 witness: the amended invariant theorem applied to a concrete run of
all four map-based operations, and to a concrete `releaseDeck` run. -/
theorem C1_witness :
    ledgerInv (applyOps [] [⟨"X", 2, 1⟩]
      ([.add [("X", 3)], .allocate [("X", 2)], .release [("X", 2)],
        .remove [("X", 1)]].take 4))
    ∧ availNonneg (applyOps [⟨1, "X", 4⟩] [⟨"X", 2, 1⟩]
        ([LedgerOp.releaseDeck 1].take 1)) := by
  constructor
  · exact (C1_ledger_invariant_amended [] [⟨"X", 2, 1⟩]
      [.add [("X", 3)], .allocate [("X", 2)], .release [("X", 2)],
       .remove [("X", 1)]] (by decide) (by decide)).1 (by decide) 4
  · exact (C1_ledger_invariant_amended [⟨1, "X", 4⟩] [⟨"X", 2, 1⟩]
      [LedgerOp.releaseDeck 1] (by decide) (by decide)).2 (by decide) 1

/-! ## Claim C5 -/

/-- C5: `release_cards` raises `CardInsufficientQuantityError` exactly when
some requested card exists in the ledger and its availability plus the
released amount would exceed its owned quantity; on an error the whole
transaction is rolled back, leaving every card unchanged (the loop threads
partially-updated state, the wrapper discards it); cards absent from the
ledger are silently skipped; and with `owned=4, available=3`,
`release({"X": 2})` fails with the error (name "X", requested 2, owned 4),
leaving availability at 3. -/
theorem C5_release_cards_spec :
    (∀ (cards : Ledger) (req : CardMap), (alKeys req).Nodup →
       ((release_cards cards req).2.isSome ↔
         ∃ p ∈ req, ∃ c, findCard cards p.1 = some c ∧
           c.quantity_owned < c.quantity_available + p.2)
       ∧ ∀ e, (release_cards cards req).2 = some e →
           (release_cards cards req).1 = cards)
    ∧ (∀ (cards : Ledger) (req : CardMap),
        (∀ p ∈ req, findCard cards p.1 = none) →
          release_cards cards req = (cards, none))
    ∧ release_cards [⟨"X", 4, 3⟩] [("X", 2)] = ([⟨"X", 4, 3⟩], some ⟨"X", 2, 4⟩) := by
  refine ⟨?_, ?_, by decide⟩
  · intro cards req hnd
    constructor
    · rw [release_cards_snd_eq]
      exact release_loop_error_iff req cards hnd
    · intro e he
      unfold release_cards at he ⊢
      rcases hres : release_cards_loop req cards with ⟨cards', e'⟩
      rw [hres] at he
      cases e' <;> simp_all
  · intro cards req habs
    unfold release_cards
    rw [release_loop_skips_absent req cards habs]

/-- C5 witness: the release theorem applied to concrete states. -/
theorem C5_witness :
    (release_cards [⟨"X", 4, 3⟩] [("X", 2)]).1 = [⟨"X", 4, 3⟩]
    ∧ release_cards [⟨"W", 1, 1⟩] [("V", 2)] = ([⟨"W", 1, 1⟩], none) := by
  constructor
  · exact (C5_release_cards_spec.1 [⟨"X", 4, 3⟩] [("X", 2)] (by decide)).2
      ⟨"X", 2, 4⟩ (by decide)
  · exact C5_release_cards_spec.2.1 [⟨"W", 1, 1⟩] [("V", 2)] (by decide)

/-! ## Claim C3 -/

/-- C3: a deck update whose fetch succeeded never fails for missing stock:
`apply_deck_update` allocates, adds exactly the reported shortage to the
inventory via `add_cards`, retries allocation of exactly the shortage, and
the retry always fully succeeds, so the returned preview's error list is
empty for every store state and every fetched deck; and the concrete case —
a new deck needing 4 "Bolt" against an empty store — ends with ledger
`Bolt: owned=4, available=0`, the deck persisted with entry Bolt:4, the
info message recording the 4-unit auto-creation, and no errors. -/
theorem C3_apply_never_fails :
    (∀ (st : WorkflowState) (new_cards : CardMap) (url format_name name : String),
       (alKeys new_cards).Nodup →
       (apply_deck_update st (.ok new_cards) url format_name name).1.errors = [])
    ∧ apply_deck_update ⟨[], [], [], 0⟩ (.ok [("Bolt", 4)]) "u" "Modern" "D" =
        (⟨"D", "Modern", ⟨[("Bolt", 4)], []⟩, [("Bolt", 4)], [],
          ["Info: Created 4 proxy cards for allocation"]⟩,
         ⟨[⟨"Bolt", 4, 0⟩], [⟨0, "D", "Modern", "u"⟩], [⟨0, "Bolt", 4⟩], 1⟩) := by
  refine ⟨?_, by decide⟩
  intro st new_cards url format_name name hnd
  have hprev : (preview_deck_update st (.ok new_cards) format_name name).errors
      = [] := by
    unfold preview_deck_update
    rcases get_decklist st name format_name with _ | deck <;> rfl
  unfold apply_deck_update
  simp only [hprev, List.isEmpty_nil, Bool.not_true, Bool.false_eq_true, if_false]
  rcases hdeck : get_decklist st name format_name with _ | deck
  · simp only [hdeck]
    rw [allocate_with_provision_errors _ _ _ hnd, hprev]
  · simp only [hdeck]
    rw [allocate_with_provision_errors _ _ _ hnd, hprev]

/-- C3 witness: the no-failure theorem applied at the concrete Bolt deck. -/
theorem C3_witness :
    (apply_deck_update ⟨[], [], [], 0⟩ (.ok [("Bolt", 4)]) "u" "Modern"
      "D").1.errors = [] :=
  C3_apply_never_fails.1 ⟨[], [], [], 0⟩ [("Bolt", 4)] "u" "Modern" "D" (by decide)

/-! ## Claim C4 -/

/-- C4, as universally stated, fails when a map holds two keys that differ
only by case: with current = {"bolt": 4, "Bolt": 2} and empty target, "bolt"
is a card of current absent from target, so the claim requires
toRemove["bolt"] = 4 — but normalization keys by the lowercased name, the
later case-variant overwrites the earlier one, and the code returns
toRemove = {"Bolt": 2} with no "bolt" entry at all. -/
theorem C4_counterexample :
    ("bolt", 4) ∈ ([("bolt", 4), ("Bolt", 2)] : CardMap)
    ∧ ciGet [] "bolt" = none
    ∧ (_calculate_swaps [("bolt", 4), ("Bolt", 2)] []).cards_to_remove = [("Bolt", 2)]
    ∧ alGet (_calculate_swaps [("bolt", 4), ("Bolt", 2)] []).cards_to_remove "bolt"
        = none := by
  refine ⟨by decide, by decide, by decide, by decide⟩

/-- C4 (amended): when within each input map no two keys coincide after
lowercasing (always true of real decklists), `toAdd` holds exactly, for each
target entry absent case-insensitively from current or present with a
smaller quantity, the positive difference keyed by the target's original
casing, in target order — and symmetrically for `toRemove`; equal
quantities appear in neither.  Unconditionally, diffing any map against
itself yields no swaps, and the claim's case-insensitivity example holds. -/
theorem C4_calculate_swaps_spec :
    (∀ current target : CardMap, lowerKeysNodup current → lowerKeysNodup target →
       _calculate_swaps current target =
         ⟨target.filterMap (swap_spec current), current.filterMap (swap_spec target)⟩)
    ∧ (∀ X : CardMap, _calculate_swaps X X = ⟨[], []⟩)
    ∧ _calculate_swaps [("bolt", 4)] [("Bolt", 2)] = ⟨[], [("bolt", 2)]⟩ := by
  refine ⟨?_, ?_, by decide⟩
  · intro current target hc ht
    have hkeysc : (alKeys current).Nodup := by
      have h2 : current.map (fun p => py_lower p.1) =
          (current.map (fun p => p.1)).map py_lower := by
        rw [List.map_map]; rfl
      rw [lowerKeysNodup, h2] at hc
      exact hc.of_map
    have hkeyst : (alKeys target).Nodup := by
      have h2 : target.map (fun p => py_lower p.1) =
          (target.map (fun p => p.1)).map py_lower := by
        rw [List.map_map]; rfl
      rw [lowerKeysNodup, h2] at ht
      exact ht.of_map
    unfold _calculate_swaps
    rw [normalized_build current hc [] (by simp [alKeys]),
      normalized_build target ht [] (by simp [alKeys])]
    simp only [List.nil_append]
    rw [swaps_fold_eq _ current (alGet_map_normalized current) target []
        hkeyst (by simp [alKeys]),
      swaps_fold_eq _ target (alGet_map_normalized target) current []
        hkeysc (by simp [alKeys])]
    simp
  · intro X
    have hnd := normalized_keys_nodup X [] (by simp [alKeys])
    have hall : ∀ q ∈ X.foldl (fun a p => alInsert a (py_lower p.1) (p.1, p.2)) [],
        alGet (X.foldl (fun a p => alInsert a (py_lower p.1) (p.1, p.2)) []) q.1
          = some q.2 :=
      fun q hq => alGet_of_mem_nodup hnd hq
    have hzeta : _calculate_swaps X X = DeckSwaps.mk
        ((X.foldl (fun m p => alInsert m (py_lower p.1) (p.1, p.2)) []).foldl
          (fun acc q =>
            match alGet (X.foldl (fun m p =>
                alInsert m (py_lower p.1) (p.1, p.2)) []) q.1 with
            | some cp => if cp.2 < q.2.2 then alInsert acc q.2.1 (q.2.2 - cp.2)
              else acc
            | none => alInsert acc q.2.1 q.2.2) [])
        ((X.foldl (fun m p => alInsert m (py_lower p.1) (p.1, p.2)) []).foldl
          (fun acc q =>
            match alGet (X.foldl (fun m p =>
                alInsert m (py_lower p.1) (p.1, p.2)) []) q.1 with
            | some np => if np.2 < q.2.2 then alInsert acc q.2.1 (q.2.2 - np.2)
              else acc
            | none => alInsert acc q.2.1 q.2.2) []) := rfl
    rw [hzeta, swaps_fold_self _ _ [] hall]

/-- C4 witness: the amended swap theorem at concrete maps mixing casing. -/
theorem C4_witness :
    _calculate_swaps [("a", 1), ("B", 2)] [("A", 3), ("b", 2)] =
      ⟨[("A", 3), ("b", 2)].filterMap (swap_spec [("a", 1), ("B", 2)]),
       [("a", 1), ("B", 2)].filterMap (swap_spec [("A", 3), ("b", 2)])⟩ :=
  C4_calculate_swaps_spec.1 _ _ (by decide) (by decide)

/-! ## Claim C7 -/

/-- C7: when the preview reports errors, `apply_deck_update` returns that
preview immediately, and the whole store (ledger, decklists, deck entries)
is the untouched input state — no release, update, creation, allocation or
inventory addition happens. -/
theorem C7_apply_aborts_on_preview_errors (st : WorkflowState)
    (fetched : Except String CardMap) (url format_name name : String)
    (herr : (preview_deck_update st fetched format_name name).errors ≠ []) :
    apply_deck_update st fetched url format_name name =
      (preview_deck_update st fetched format_name name, st) := by
  have hne : (preview_deck_update st fetched format_name name).errors.isEmpty
      = false := by
    rcases h : (preview_deck_update st fetched format_name name).errors with _ | ⟨a, as⟩
    · exact absurd h herr
    · rfl
  simp [apply_deck_update, hne]

/-- C7 witness: a failing fetch at a concrete state. -/
theorem C7_witness :
    (preview_deck_update ⟨[], [], [], 0⟩ (.error "boom") "Modern" "D").errors ≠ []
    ∧ apply_deck_update ⟨[], [], [], 0⟩ (.error "boom") "u" "Modern" "D" =
        (preview_deck_update ⟨[], [], [], 0⟩ (.error "boom") "Modern" "D",
         (⟨[], [], [], 0⟩ : WorkflowState)) := by
  constructor
  · decide
  · exact C7_apply_aborts_on_preview_errors _ _ _ _ _ (by decide)

/-! ## Claim C8 -/

/-- C8: the round-trip scenario.  Adding 4 "Lightning Bolt" to an empty
ledger yields owned=4, available=4; allocating a deck needing 4 succeeds
with an empty shortage map and leaves available=0; persisting the deck
stores the entry Bolt:4; and releasing the deck's allocation over those
persisted entries (what deck deletion performs) restores available=4 with
owned still 4. -/
theorem C8_round_trip :
    add_cards [] [("Lightning Bolt", 4)] = [⟨"Lightning Bolt", 4, 4⟩]
    ∧ allocate_cards [⟨"Lightning Bolt", 4, 4⟩] [("Lightning Bolt", 4)] =
        ([], [⟨"Lightning Bolt", 4, 0⟩])
    ∧ (update_decklist_cards
        ⟨[⟨"Lightning Bolt", 4, 0⟩], [⟨1, "A", "Cube", "u"⟩], [], 2⟩
        1 [("Lightning Bolt", 4)]).entries = [⟨1, "Lightning Bolt", 4⟩]
    ∧ release_decklist_allocation [⟨"Lightning Bolt", 4, 0⟩]
        [⟨1, "Lightning Bolt", 4⟩] 1 = [⟨"Lightning Bolt", 4, 4⟩] := by
  refine ⟨by decide, by decide, by decide, by decide⟩

end Netdecker
